import Mathlib

/-!
Verification of the consistent-hash placement engine.

The Go sources are embedded shallowly:

* Go strings are modelled as lists of characters (`Str`).
* The skiplist ring (`local/hash_ring.go`) is modelled through its level-0
  linked list: a list of `(score, vkeys)` slots kept in ascending score order.
  The higher skiplist levels are a probabilistic search index over that list
  and do not change the observable behaviour of `get`, `ceiling`, `floor`,
  `first`, `last`, `Add` or `Rem`; each of those is therefore embedded by its
  effect on the level-0 list.
* Go maps are association lists; Go map iteration order, which is unspecified,
  is fixed to list order (no claim depends on a multi-key iteration order).
* The engine (`consistent_hash.go`, migrator file) is embedded with explicit
  state passing: each operation returns its Go error result together with the
  state of the ring when the operation returns, since in Go mutations made
  before an error return persist.  The distributed lock acquire/release pair
  that brackets each public operation is a no-op in this single-threaded
  model; the token bookkeeping of the skiplist lock is modelled separately.
* The caller-supplied migrator callback only moves external data, so only its
  presence (`hasMigrator`) matters for the ring state; the `(from, to, keys)`
  tuples it would receive are returned by `migrateIn` / `migrateOut`.
-/

namespace CHash

/-- Go strings, modelled as lists of characters. -/
abbrev Str := List Char

/-- `math.MaxInt32`, the modulus of the score ring. -/
def M32 : Int := 2147483647

/-! ## Association lists modelling Go maps -/

/-- Go map read `m[k]`. -/
def lookupA {α : Type} (l : List (Str × α)) (k : Str) : Option α :=
  match l with
  | [] => none
  | p :: rest => if p.1 = k then some p.2 else lookupA rest k

/-- Go map write `m[k] = v`. -/
def setA {α : Type} (l : List (Str × α)) (k : Str) (v : α) : List (Str × α) :=
  match l with
  | [] => [(k, v)]
  | p :: rest => if p.1 = k then (k, v) :: rest else p :: setA rest k v

/-- Go map delete `delete(m, k)`. -/
def eraseA {α : Type} (l : List (Str × α)) (k : Str) : List (Str × α) :=
  match l with
  | [] => []
  | p :: rest => if p.1 = k then eraseA rest k else p :: eraseA rest k

/-! ## The ring state (SkiplistHashRing) -/

/-- The observable state of a `SkiplistHashRing`: the level-0 slot list
(ascending scores, each slot a list of virtual-node keys), the
node-to-replicas map and the node-to-data-keys map. -/
structure RingState where
  slots : List (Int × List Str)
  nodeToReplicas : List (Str × Nat)
  nodeToDataKey : List (Str × List Str)
deriving DecidableEq

/-- The freshly constructed ring (`NewSkiplistHashRing`). -/
def emptyRing : RingState := { slots := [], nodeToReplicas := [], nodeToDataKey := [] }

/-- Skiplist `get`: the slot whose score equals `score`. -/
def getSlot (slots : List (Int × List Str)) (score : Int) : Option (List Str) :=
  match slots with
  | [] => none
  | p :: rest => if p.1 = score then some p.2 else getSlot rest score

/-- Replace the vkey list of the slot at `score` (in-place node mutation). -/
def setSlot (slots : List (Int × List Str)) (score : Int) (vkeys : List Str) :
    List (Int × List Str) :=
  match slots with
  | [] => []
  | p :: rest => if p.1 = score then (score, vkeys) :: rest else p :: setSlot rest score vkeys

/-- Skiplist insertion of a new slot: the new node is linked before the first
slot whose score is not smaller (`for move.nexts[level].score < score`). -/
def insertSlot (slots : List (Int × List Str)) (score : Int) (vkeys : List Str) :
    List (Int × List Str) :=
  match slots with
  | [] => [(score, vkeys)]
  | p :: rest =>
    if score ≤ p.1 then (score, vkeys) :: p :: rest
    else p :: insertSlot rest score vkeys

/-- Skiplist node unlink: drop the slot whose score equals `score`. -/
def dropSlot (slots : List (Int × List Str)) (score : Int) : List (Int × List Str) :=
  match slots with
  | [] => []
  | p :: rest => if p.1 = score then rest else p :: dropSlot rest score

/-- Remove the first occurrence of `v`
(`append(nodeIDs[:index], nodeIDs[index+1:]...)` at the first matching index). -/
def removeFirst (l : List Str) (v : Str) : List Str :=
  match l with
  | [] => []
  | x :: rest => if x = v then rest else x :: removeFirst rest v

/-- `SkiplistHashRing.Add`: append `vkey` to the slot at `score` if absent,
creating the slot when `score` is not stored yet. -/
def hrAdd (s : RingState) (score : Int) (vkey : Str) : RingState :=
  match getSlot s.slots score with
  | some l =>
    if vkey ∈ l then s
    else { s with slots := setSlot s.slots score (l ++ [vkey]) }
  | none => { s with slots := insertSlot s.slots score [vkey] }

/-- Skiplist `ceiling`: the first stored score that is not below `score`
    (level-0 reading of the top-down descent). -/
def ceilingQ (slots : List (Int × List Str)) (score : Int) : Option Int :=
  match slots with
  | [] => none
  | p :: rest => if score ≤ p.1 then some p.1 else ceilingQ rest score

/-- Skiplist `floor`: the last stored score that is not above `score`. -/
def floorQ (slots : List (Int × List Str)) (score : Int) : Option Int :=
  match slots with
  | [] => none
  | p :: rest =>
    if score < p.1 then none
    else
      match floorQ rest score with
      | some t => some t
      | none => some p.1

/-- Skiplist `first`: score of the first slot, `-1` on an empty ring. -/
def hrFirst (slots : List (Int × List Str)) : Int :=
  match slots with
  | [] => -1
  | p :: _ => p.1

/-- Skiplist `last`: score of the last slot, `-1` on an empty ring. -/
def hrLast (slots : List (Int × List Str)) : Int :=
  match slots with
  | [] => -1
  | [p] => p.1
  | _ :: rest => hrLast rest

/-- `SkiplistHashRing.Ceiling`: inner ceiling, falling back to `first`
(whose failure sentinel `-1` is passed through). -/
def hrCeiling (s : RingState) (score : Int) : Int :=
  match ceilingQ s.slots score with
  | some t => t
  | none => hrFirst s.slots

/-- `SkiplistHashRing.Floor`: inner floor, falling back to `last`. -/
def hrFloor (s : RingState) (score : Int) : Int :=
  match floorQ s.slots score with
  | some t => t
  | none => hrLast s.slots

/-- `SkiplistHashRing.Rem`: remove `vkey` from the slot at `score`, delete the
data-key entry stored under the `vkey` string, and unlink the slot when `vkey`
was its only entry.  Fails when the slot or the vkey is absent (the Go error
strings carry the offending values; the claims never inspect them). -/
def hrRem (s : RingState) (score : Int) (vkey : Str) : Except String RingState :=
  match getSlot s.slots score with
  | none => .error "score not exist"
  | some l =>
    if vkey ∈ l then
      let s1 : RingState := { s with nodeToDataKey := eraseA s.nodeToDataKey vkey }
      if l.length > 1 then
        .ok { s1 with slots := setSlot s1.slots score (removeFirst l vkey) }
      else
        .ok { s1 with slots := dropSlot s1.slots score }
    else .error "node not exist in score"

/-- `SkiplistHashRing.Node`: the vkey list at `score`, failing when absent. -/
def hrNode (s : RingState) (score : Int) : Except String (List Str) :=
  match getSlot s.slots score with
  | none => .error "score not exist"
  | some l => .ok l

/-- `SkiplistHashRing.DataKeys`: the data-key set of a node (`nil` map reads
as the empty set). -/
def hrDataKeys (s : RingState) (nodeID : Str) : List Str :=
  (lookupA s.nodeToDataKey nodeID).getD []

/-- Union a key list into a set list, keeping first-insertion order. -/
def insertKeys (old : List Str) (ks : List Str) : List Str :=
  match ks with
  | [] => old
  | k :: rest => insertKeys (if k ∈ old then old else old ++ [k]) rest

/-- `SkiplistHashRing.AddNodeToDataKeys`: union `ks` into the node's set.
The entry is written back even when the resulting set is empty. -/
def hrAddNodeToDataKeys (s : RingState) (nodeID : Str) (ks : List Str) : RingState :=
  { s with nodeToDataKey := setA s.nodeToDataKey nodeID (insertKeys (hrDataKeys s nodeID) ks) }

/-- Drop every element of `ks` from `old`. -/
def subtractKeys (old : List Str) (ks : List Str) : List Str :=
  match old with
  | [] => []
  | k :: rest => if k ∈ ks then subtractKeys rest ks else k :: subtractKeys rest ks

/-- `SkiplistHashRing.DeleteNodeToDataKeys`: subtract `ks` from the node's
set; a missing entry is left alone, an entry that becomes empty is deleted. -/
def hrDeleteNodeToDataKeys (s : RingState) (nodeID : Str) (ks : List Str) : RingState :=
  match lookupA s.nodeToDataKey nodeID with
  | none => s
  | some old =>
    let rem := subtractKeys old ks
    if rem = [] then { s with nodeToDataKey := eraseA s.nodeToDataKey nodeID }
    else { s with nodeToDataKey := setA s.nodeToDataKey nodeID rem }

/-- `SkiplistHashRing.AddNodeToReplica`. -/
def hrAddNodeToReplica (s : RingState) (nodeID : Str) (replicas : Nat) : RingState :=
  { s with nodeToReplicas := setA s.nodeToReplicas nodeID replicas }

/-- `SkiplistHashRing.DeleteNodeToReplica`. -/
def hrDeleteNodeToReplica (s : RingState) (nodeID : Str) : RingState :=
  { s with nodeToReplicas := eraseA s.nodeToReplicas nodeID }

/-! ## The skiplist ring lock (owner-token bookkeeping) -/

/-- The owner token stored in `LockEntity.owner` (an `atomic.Value`; reading
the unset or cleared value yields the empty string).  The mutexes and the
expiry goroutine are concurrency mechanics outside this state model. -/
structure LockEntity where
  owner : String
deriving DecidableEq

/-- `SkiplistHashRing.unlock`: compare the caller token with the stored owner;
on success the owner is cleared to the empty string and the primary mutex is
released. -/
def unlockRing (l : LockEntity) (token : String) : (Except String Unit) × LockEntity :=
  if l.owner ≠ token then (.error "not your lock", l)
  else (.ok (), { owner := "" })

/-- `SkiplistHashRing.Lock`: store the caller token as owner. -/
def lockRing (_ : LockEntity) (token : String) : LockEntity := { owner := token }

/-! ## Virtual-node key strings -/

/-- Decimal digit character (`fmt.Sprintf` with the `%d` verb). -/
def digitChar (d : Nat) : Char :=
  if d = 0 then '0' else if d = 1 then '1' else if d = 2 then '2'
  else if d = 3 then '3' else if d = 4 then '4' else if d = 5 then '5'
  else if d = 6 then '6' else if d = 7 then '7' else if d = 8 then '8' else '9'

/-- Decimal printing with structural fuel (any fuel above `n` suffices). -/
def natCharsAux : Nat → Nat → List Char
  | 0, _ => []
  | fuel + 1, n =>
    if n < 10 then [digitChar n]
    else natCharsAux fuel (n / 10) ++ [digitChar (n % 10)]

/-- Decimal representation of a natural number. -/
def natChars (n : Nat) : List Char := natCharsAux (n + 1) n

/-- `getRawNodeKey`: the virtual-node key `fmt.Sprintf("%s_%d", nodeID, i)`. -/
def rawNodeKey (nodeID : Str) (i : Nat) : Str := nodeID ++ '_' :: natChars i

/-- Index of the last occurrence of the underscore (`strings.LastIndex`). -/
def lastUnderscore (s : Str) : Option Nat :=
  match s with
  | [] => none
  | c :: rest =>
    match lastUnderscore rest with
    | some i => some (i + 1)
    | none => if c = '_' then some 0 else none

/-- `getNodeID`: the prefix before the last underscore.  (On a string with no
underscore the Go code would slice with index `-1` and panic; the engine only
applies it to virtual-node keys, which always contain one.) -/
def getNodeID (v : Str) : Str :=
  match lastUnderscore v with
  | some i => v.take i
  | none => []

/-! ## The placement engine (ConsistentHash) -/

/-- A `ConsistentHash` instance: the hash function, whether a migrator
callback was registered, and the repaired `replicas` option. -/
structure CH where
  encrypt : Str → Int
  hasMigrator : Bool
  replicas : Nat

/-- `getValidWeight`: clamp the weight into `[1, 10]`. -/
def getValidWeight (weight : Int) : Nat :=
  if weight ≤ 0 then 1 else if weight ≥ 10 then 10 else weight.toNat

/-- `incrScore`: step forward on the ring modulo `MaxInt32`. -/
def incrScore (score : Int) : Int := if score = M32 - 1 then 0 else score + 1

/-- `decrScore`: step backward on the ring modulo `MaxInt32`. -/
def decrScore (score : Int) : Int := if score = 0 then M32 - 1 else score - 1

/-- The per-data-key arc test of `migrateIn` (after the pattern shifts have
been applied to `lastScore` and `vs`): shift the data score by the two wrap
patterns and keep it when it falls in `(lastScore, vs]`. -/
def migKeep (c : CH) (p1 p2 : Bool) (lastScore vs : Int) (dk : Str) : Bool :=
  let ds0 := c.encrypt dk
  let ds1 := if p1 && decide (ds0 > lastScore + M32) then ds0 - M32 else ds0
  let ds := if p2 then ds1 - M32 else ds1
  !(decide (ds ≤ lastScore) || decide (ds > vs))

/-- The per-data-key arc test of `migrateOut` (single wrap pattern). -/
def outKeep (c : CH) (pattern : Bool) (lastScore vs : Int) (dk : Str) : Bool :=
  let ds0 := c.encrypt dk
  let ds := if pattern && decide (ds0 > lastScore + M32) then ds0 - M32 else ds0
  !(decide (ds ≤ lastScore) || decide (ds > vs))

/-- `migrateIn`: data that must move to the node owning the freshly inserted
virtual node at `virtualScore`.  Returns the `(from, to, keys)` triple handed
to the migrator (empty strings model Go's zero values) and the ring state. -/
def migrateIn (c : CH) (s : RingState) (virtualScore : Int) (nodeID : Str) :
    (Except String (Str × Str × List Str)) × RingState :=
  if c.hasMigrator = false then (.ok ([], [], []), s)
  else
    match hrNode s virtualScore with
    | .error e => (.error e, s)
    | .ok nodes =>
      if nodes.length > 1 then (.ok ([], [], []), s)
      else
        let lastScore0 := hrFloor s (decrScore virtualScore)
        if lastScore0 = -1 ∨ lastScore0 = virtualScore then (.ok ([], [], []), s)
        else
          let nextScore := hrCeiling s (incrScore virtualScore)
          if nextScore = -1 ∨ nextScore = virtualScore then (.ok ([], [], []), s)
          else
            let p1 : Bool := decide (lastScore0 > virtualScore)
            let p2 : Bool := decide (nextScore < virtualScore)
            let lastScore1 := if p1 then lastScore0 - M32 else lastScore0
            let vs1 := if p2 then virtualScore - M32 else virtualScore
            let lastScore2 := if p2 then lastScore1 - M32 else lastScore1
            match hrNode s nextScore with
            | .error e => (.error e, s)
            | .ok [] => (.ok ([], [], []), s)
            | .ok (nextFirst :: _) =>
              let fromID := getNodeID nextFirst
              let datas := (hrDataKeys s fromID).filter
                (fun dk => migKeep c p1 p2 lastScore2 vs1 dk)
              let s1 := hrDeleteNodeToDataKeys s fromID datas
              let s2 := hrAddNodeToDataKeys s1 nodeID datas
              (.ok (fromID, nodeID, datas), s2)

/-- `getValidNextNode`: walk the ring forward from `score` looking for a slot
whose owner is a different node; `ranged` breaks full-ring cycles.  The Go
recursion terminates because every recursive call adds a fresh slot score to
`ranged`; the structural `fuel` (instantiated with `slots.length + 2` by the
caller) bounds that same depth. -/
def getValidNextNode (c : CH) (s : RingState) (fuel : Nat) (score : Int) (nodeID : Str)
    (ranged : List Int) : Except String Str :=
  match fuel with
  | 0 => .error "ring walk fuel exhausted"
  | fuel1 + 1 =>
    let nextScore := hrCeiling s (incrScore score)
    if nextScore = -1 then .ok []
    else if nextScore ∈ ranged then .ok []
    else
      match hrNode s nextScore with
      | .error e => .error e
      | .ok [] => .error "next node empty"
      | .ok (nextFirst :: nextRest) =>
        if getNodeID nextFirst ≠ nodeID then .ok (getNodeID nextFirst)
        else
          match nextRest with
          | second :: _ => .ok (getNodeID second)
          | [] => getValidNextNode c s fuel1 nextScore nodeID (score :: ranged)

/-- The body of `migrateOut` before its deferred bookkeeping: compute the
`(from, to, keys)` migration for the removal of the virtual node of `nodeID`
at `virtualScore`.  Purely a read of the state.  Note the two quirks kept
from the source: the misspelled error string of the sole-slot branch, and the
swallowing of a `getValidNextNode` error (the code restores the stale, nil
error of the preceding `Floor` call). -/
def migrateOutCore (c : CH) (s : RingState) (virtualScore : Int) (nodeID : Str) :
    Except String (Str × Str × List Str) :=
  match hrNode s virtualScore with
  | .error e => .error e
  | .ok [] => .ok (nodeID, [], [])
  | .ok (first :: restNodes) =>
    if getNodeID first ≠ nodeID then .ok (nodeID, [], [])
    else
      let allDatas := hrDataKeys s nodeID
      if allDatas = [] then .ok (nodeID, [], [])
      else
        let lastScore0 := hrFloor s (decrScore virtualScore)
        if lastScore0 = -1 ∨ lastScore0 = virtualScore then
          match restNodes with
          | [] => .error "no other no"
          | second :: _ =>
            .ok (nodeID, getNodeID second, allDatas)
        else
          let pattern : Bool := decide (lastScore0 > virtualScore)
          let lastScore := if pattern then lastScore0 - M32 else lastScore0
          let datas := allDatas.filter (fun d => outKeep c pattern lastScore virtualScore d)
          match restNodes with
          | second :: _ => .ok (nodeID, getNodeID second, datas)
          | [] =>
            match getValidNextNode c s (s.slots.length + 2) virtualScore nodeID [] with
            | .error _ => .ok (nodeID, [], datas)
            | .ok t =>
              if t = [] then .error "no other node"
              else .ok (nodeID, t, datas)

/-- `migrateOut`: the core computation followed by the deferred bookkeeping,
which moves the selected keys from the leaving node to the destination when
the core succeeded with a destination and a non-empty key set. -/
def migrateOut (c : CH) (s : RingState) (virtualScore : Int) (nodeID : Str) :
    (Except String (Str × Str × List Str)) × RingState :=
  if c.hasMigrator = false then (.ok ([], [], []), s)
  else
    match migrateOutCore c s virtualScore nodeID with
    | .error e => (.error e, s)
    | .ok (f, t, ds) =>
      if t = [] ∨ ds = [] then (.ok (f, t, ds), s)
      else
        let s1 := hrDeleteNodeToDataKeys s nodeID ds
        let s2 := hrAddNodeToDataKeys s1 t ds
        (.ok (f, t, ds), s2)

/-- `GetNode`: locate the ceiling slot of the data key's score, register the
key under the stripped node ID of the slot owner, and return the raw owner
vkey. -/
def getNode (c : CH) (s : RingState) (dataKey : Str) : (Except String Str) × RingState :=
  let dataScore := c.encrypt dataKey
  let ceilingScore := hrCeiling s dataScore
  if ceilingScore = -1 then (.error "no node available", s)
  else
    match hrNode s ceilingScore with
    | .error e => (.error e, s)
    | .ok [] => (.error "no node available with empty score", s)
    | .ok (first :: _) =>
      (.ok first, hrAddNodeToDataKeys s (getNodeID first) [dataKey])

/-- One iteration of the `AddNode` replica loop: insert the `i`-th virtual
node and compute its inbound migration. -/
def addNodeStep (c : CH) (nodeID : Str) (i : Nat) (s : RingState) :
    (Except String Unit) × RingState :=
  let nodeKey := rawNodeKey nodeID i
  let virtualScore := c.encrypt nodeKey
  let s1 := hrAdd s virtualScore nodeKey
  match migrateIn c s1 virtualScore nodeID with
  | (.error e, s2) => (.error e, s2)
  | (.ok _, s2) => (.ok (), s2)

/-- The `AddNode` replica loop over the index list. -/
def addNodeLoop (c : CH) (nodeID : Str) (idxs : List Nat) (s : RingState) :
    (Except String Unit) × RingState :=
  match idxs with
  | [] => (.ok (), s)
  | i :: rest =>
    match addNodeStep c nodeID i s with
    | (.error e, s1) => (.error e, s1)
    | (.ok _, s1) => addNodeLoop c nodeID rest s1

/-- `AddNode`: reject a duplicate node, record its replica count, then insert
its virtual nodes one by one, computing inbound migrations. -/
def addNode (c : CH) (s : RingState) (nodeID : Str) (weight : Int) :
    (Except String Unit) × RingState :=
  if s.nodeToReplicas.any (fun p => decide (p.1 = nodeID)) then (.error "repeat node", s)
  else
    let replicas := getValidWeight weight * c.replicas
    let s1 := hrAddNodeToReplica s nodeID replicas
    addNodeLoop c nodeID (List.range replicas) s1

/-- One iteration of the `RemoveNode` replica loop: compute the outbound
migration of the `i`-th virtual node, then remove it from the ring. -/
def removeNodeStep (c : CH) (nodeID : Str) (i : Nat) (s : RingState) :
    (Except String Unit) × RingState :=
  let virtualScore := c.encrypt (rawNodeKey nodeID i)
  match migrateOut c s virtualScore nodeID with
  | (.error e, s1) => (.error e, s1)
  | (.ok _, s1) =>
    match hrRem s1 virtualScore (rawNodeKey nodeID i) with
    | .error e => (.error e, s1)
    | .ok s2 => (.ok (), s2)

/-- The `RemoveNode` replica loop over the index list. -/
def removeNodeLoop (c : CH) (nodeID : Str) (idxs : List Nat) (s : RingState) :
    (Except String Unit) × RingState :=
  match idxs with
  | [] => (.ok (), s)
  | i :: rest =>
    match removeNodeStep c nodeID i s with
    | (.error e, s1) => (.error e, s1)
    | (.ok _, s1) => removeNodeLoop c nodeID rest s1

/-- `RemoveNode`: reject an unknown node, delete its replica entry, then
remove its virtual nodes one by one, computing outbound migrations. -/
def removeNode (c : CH) (s : RingState) (nodeID : Str) :
    (Except String Unit) × RingState :=
  match lookupA s.nodeToReplicas nodeID with
  | none => (.error "invalid node id", s)
  | some replicas =>
    let s1 := hrDeleteNodeToReplica s nodeID
    removeNodeLoop c nodeID (List.range replicas) s1

/-! ## State predicates -/

/-- `v` is stored in the slot at `score`. -/
def slotHas (s : RingState) (score : Int) (v : Str) : Prop :=
  ∃ l, getSlot s.slots score = some l ∧ v ∈ l

/-- The slot list is in strictly ascending score order (the level-0 skiplist
invariant). -/
def SortedSlots (slots : List (Int × List Str)) : Prop :=
  List.Pairwise (· < ·) (slots.map Prod.fst)

/-- The decode invariant of the spec: every virtual-node key stored in any
ring slot decodes (suffix after the last underscore) to a node ID present in
the node-to-replicas map. -/
def ringConsistent (s : RingState) : Prop :=
  ∀ p ∈ s.slots, ∀ v ∈ p.2, (lookupA s.nodeToReplicas (getNodeID v)).isSome = true

instance ringConsistentDec (s : RingState) : Decidable (ringConsistent s) := by
  unfold ringConsistent; infer_instance

/-- Well-formedness of a ring state with respect to an engine configuration:
scores sorted strictly, slots non-empty and duplicate-free, replica keys
unique, every stored vkey encoding a registered replica and stored at its own
hash score, and every registered replica stored in its slot. -/
structure WFState (c : CH) (s : RingState) : Prop where
  sorted : SortedSlots s.slots
  nonempty : ∀ p ∈ s.slots, p.2 ≠ []
  nodup : ∀ p ∈ s.slots, p.2.Nodup
  repNodup : (s.nodeToReplicas.map Prod.fst).Nodup
  sound : ∀ p ∈ s.slots, ∀ v ∈ p.2, ∃ nd rp i,
    lookupA s.nodeToReplicas nd = some rp ∧ i < rp ∧ v = rawNodeKey nd i ∧ p.1 = c.encrypt v
  complete : ∀ nd rp, lookupA s.nodeToReplicas nd = some rp →
    ∀ i < rp, slotHas s (c.encrypt (rawNodeKey nd i)) (rawNodeKey nd i)

/-- The part of well-formedness that is invariant through the AddNode replica
loop (completeness of the node being added only holds once its loop ends). -/
structure WFCore (c : CH) (s : RingState) : Prop where
  sorted : SortedSlots s.slots
  nonempty : ∀ p ∈ s.slots, p.2 ≠ []
  nodup : ∀ p ∈ s.slots, p.2.Nodup
  repNodup : (s.nodeToReplicas.map Prod.fst).Nodup
  sound : ∀ p ∈ s.slots, ∀ v ∈ p.2, ∃ nd rp i,
    lookupA s.nodeToReplicas nd = some rp ∧ i < rp ∧ v = rawNodeKey nd i ∧ p.1 = c.encrypt v

/-- The invariant carried through the RemoveNode replica loop: the node being
removed is gone from the replica map, and every stored vkey either belongs to
a registered node or is one of the pending vkeys of the leaving node. -/
structure RemInv (c : CH) (n : Str) (R : Nat) (pending : List Nat) (t : RingState) : Prop where
  sorted : SortedSlots t.slots
  nonempty : ∀ p ∈ t.slots, p.2 ≠ []
  nodup : ∀ p ∈ t.slots, p.2.Nodup
  repNodup : (t.nodeToReplicas.map Prod.fst).Nodup
  nlook : lookupA t.nodeToReplicas n = none
  soundX : ∀ p ∈ t.slots, ∀ v ∈ p.2,
    (∃ nd rp i, lookupA t.nodeToReplicas nd = some rp ∧ i < rp ∧
      v = rawNodeKey nd i ∧ p.1 = c.encrypt v)
    ∨ (∃ i ∈ pending, i < R ∧ v = rawNodeKey n i ∧ p.1 = c.encrypt v)
  completeX : ∀ nd rp, lookupA t.nodeToReplicas nd = some rp → ∀ i < rp,
    slotHas t (c.encrypt (rawNodeKey nd i)) (rawNodeKey nd i)

/-- Ring states reachable from the empty ring through public operations that
returned without error. -/
inductive Reachable (c : CH) : RingState → Prop where
  | start : Reachable c emptyRing
  | stepAdd (s s2 : RingState) (nodeID : Str) (weight : Int) :
      Reachable c s → addNode c s nodeID weight = (.ok (), s2) → Reachable c s2
  | stepRemove (s s2 : RingState) (nodeID : Str) :
      Reachable c s → removeNode c s nodeID = (.ok (), s2) → Reachable c s2
  | stepGet (s s2 : RingState) (dataKey v : Str) :
      Reachable c s → getNode c s dataKey = (.ok v, s2) → Reachable c s2

/-! ## Concrete scenario data -/

/-- Character list of a string literal. -/
def strChars (s : String) : Str := s.data

/-- A deterministic table-driven hasher for the boundary scenarios. -/
def tableEnc (table : List (String × Int)) (s : Str) : Int :=
  match table with
  | [] => 0
  | p :: rest => if p.1.data = s then p.2 else tableEnc rest s

/-- Score-wrap scenario hasher: virtual node `A_0` at 10, `B_0` at
`MaxInt32 - 10`, data key `d` at 5, new virtual node `X_0` at 3. -/
def encWrap : Str → Int :=
  tableEnc [("A_0", 10), ("B_0", 2147483637), ("d", 5), ("X_0", 3)]

/-- Score-wrap scenario engine: one virtual node per unit weight, migrator
configured. -/
def cfgWrap : CH := { encrypt := encWrap, hasMigrator := true, replicas := 1 }

/-- Score-wrap scenario ring after `AddNode(A, 1)` and `AddNode(B, 1)`. -/
def ringWrap : RingState :=
  (addNode cfgWrap (addNode cfgWrap emptyRing (strChars "A") 1).2 (strChars "B") 1).2

/-- Sole-node scenario hasher: `A_0` at 7, data key `k` at 6. -/
def encSole : Str → Int := tableEnc [("A_0", 7), ("k", 6)]

/-- Sole-node scenario engine: one virtual node per unit weight, migrator
configured. -/
def cfgSole : CH := { encrypt := encSole, hasMigrator := true, replicas := 1 }

/-- Sole-node scenario ring: `AddNode(A, 1)` then one key registered through
`GetNode(k)`. -/
def ringSole : RingState :=
  (getNode cfgSole (addNode cfgSole emptyRing (strChars "A") 1).2 (strChars "k")).2

/-- Round-trip scenario hasher: `A_0` at 5, `A_1` at 9. -/
def encPair : Str → Int := tableEnc [("A_0", 5), ("A_1", 9)]

/-- Round-trip scenario engine: two virtual nodes per unit weight, migrator
configured. -/
def cfgPair : CH := { encrypt := encPair, hasMigrator := true, replicas := 2 }

/-- Demonstration ring used by witness theorems. -/
def ringDemo : RingState :=
  { slots := [(3, [strChars "N_0"]), (10, [strChars "N_1"])],
    nodeToReplicas := [(strChars "N", 2)],
    nodeToDataKey := [(strChars "N", [strChars "q"])] }

/-- The slot effect of the AddNode replica loop: insert the virtual nodes of
`nodeID` for each index, in order (the pure part of the loop, which is all of
it when no migrator is configured). -/
def addPure (c : CH) (nodeID : Str) (is : List Nat) (s : RingState) : RingState :=
  match is with
  | [] => s
  | i :: rest =>
    addPure c nodeID rest (hrAdd s (c.encrypt (rawNodeKey nodeID i)) (rawNodeKey nodeID i))

/-- Sole-node ring with two replicas and one registered data key, used with
the migrator-free engine. -/
def ringNilSole : RingState :=
  { slots := [(5, [strChars "A_0"]), (9, [strChars "A_1"])],
    nodeToReplicas := [(strChars "A", 2)],
    nodeToDataKey := [(strChars "A", [strChars "k"])] }

/-- Round-trip scenario engine without a migrator callback. -/
def cfgPairNil : CH := { encrypt := encPair, hasMigrator := false, replicas := 2 }

/-- The demonstration ring after removing N_0. -/
def remDemo : RingState :=
  { slots := [(10, [strChars "N_1"])],
    nodeToReplicas := [(strChars "N", 2)],
    nodeToDataKey := [(strChars "N", [strChars "q"])] }

/-! ## Lemmas: association lists -/

theorem lookupA_setA_self {α : Type} (l : List (Str × α)) (k : Str) (v : α) :
    lookupA (setA l k v) k = some v := by
  induction l with
  | nil => simp [setA, lookupA]
  | cons p rest ih =>
    simp only [setA]
    split_ifs with h1
    · simp [lookupA]
    · simp [lookupA, h1, ih]

theorem lookupA_setA_ne {α : Type} (l : List (Str × α)) (k k2 : Str) (v : α)
    (h : k2 ≠ k) : lookupA (setA l k v) k2 = lookupA l k2 := by
  have hk : ¬ (k = k2) := fun hh => h hh.symm
  induction l with
  | nil => simp [setA, lookupA, hk]
  | cons p rest ih =>
    simp only [setA]
    split_ifs with h1
    · have hp2 : ¬ (p.1 = k2) := by rw [h1]; exact hk
      simp [lookupA, hk, hp2]
    · simp only [lookupA, ih]

theorem lookupA_eraseA_self {α : Type} (l : List (Str × α)) (k : Str) :
    lookupA (eraseA l k) k = none := by
  induction l with
  | nil => simp [eraseA, lookupA]
  | cons p rest ih =>
    simp only [eraseA]
    split_ifs with h1
    · exact ih
    · simp [lookupA, h1, ih]

theorem lookupA_eraseA_ne {α : Type} (l : List (Str × α)) (k k2 : Str)
    (h : k2 ≠ k) : lookupA (eraseA l k) k2 = lookupA l k2 := by
  induction l with
  | nil => simp [eraseA]
  | cons p rest ih =>
    simp only [eraseA]
    split_ifs with h1
    · have : ¬ (p.1 = k2) := by rw [h1]; exact fun hh => h hh.symm
      simp only [lookupA, if_neg this, ih]
    · simp only [lookupA, ih]

theorem lookupA_eq_none {α : Type} (l : List (Str × α)) (k : Str) :
    lookupA l k = none ↔ ∀ p ∈ l, p.1 ≠ k := by
  induction l with
  | nil => simp [lookupA]
  | cons p rest ih =>
    by_cases h : p.1 = k
    · simp only [lookupA, if_pos h, List.forall_mem_cons]
      constructor
      · intro hh; exact absurd hh (by simp)
      · intro hh; exact absurd h hh.1
    · simp only [lookupA, if_neg h, List.forall_mem_cons, ih]
      constructor
      · intro hh; exact ⟨h, hh⟩
      · intro hh; exact hh.2

theorem eraseA_of_lookup_none {α : Type} (l : List (Str × α)) (k : Str)
    (h : lookupA l k = none) : eraseA l k = l := by
  induction l with
  | nil => simp [eraseA]
  | cons p rest ih =>
    rw [lookupA_eq_none] at h
    have hp : p.1 ≠ k := h p (List.mem_cons_self p rest)
    have hr : lookupA rest k = none := by
      rw [lookupA_eq_none]; exact fun q hq => h q (List.mem_cons_of_mem p hq)
    simp [eraseA, hp, ih hr]

theorem setA_of_lookup_some {α : Type} (l : List (Str × α)) (k : Str) (v : α)
    (h : lookupA l k = some v) : setA l k v = l := by
  induction l with
  | nil => simp [lookupA] at h
  | cons p rest ih =>
    by_cases hp : p.1 = k
    · simp only [lookupA, if_pos hp] at h
      have h2 := h
      simp only [Option.some_inj] at h2
      simp only [setA, if_pos hp, ← hp, ← h2]
      simp
    · simp only [lookupA, if_neg hp] at h
      simp only [setA, if_neg hp, ih h]

theorem setA_of_lookup_none {α : Type} (l : List (Str × α)) (k : Str) (v : α)
    (h : lookupA l k = none) : setA l k v = l ++ [(k, v)] := by
  induction l with
  | nil => simp [setA]
  | cons p rest ih =>
    rw [lookupA_eq_none] at h
    have hp : p.1 ≠ k := h p (List.mem_cons_self p rest)
    have hr : lookupA rest k = none := by
      rw [lookupA_eq_none]; exact fun q hq => h q (List.mem_cons_of_mem p hq)
    simp [setA, hp, ih hr]

theorem eraseA_append_single {α : Type} (l : List (Str × α)) (k : Str) (v : α)
    (h : lookupA l k = none) : eraseA (l ++ [(k, v)]) k = l := by
  induction l with
  | nil => simp [eraseA]
  | cons p rest ih =>
    rw [lookupA_eq_none] at h
    have hp : p.1 ≠ k := h p (List.mem_cons_self p rest)
    have hr : lookupA rest k = none := by
      rw [lookupA_eq_none]; exact fun q hq => h q (List.mem_cons_of_mem p hq)
    simp [eraseA, hp, ih hr]

theorem any_key_eq_false {α : Type} (l : List (Str × α)) (k : Str) :
    (l.any fun p => decide (p.1 = k)) = false ↔ lookupA l k = none := by
  rw [lookupA_eq_none, List.any_eq_false]
  constructor
  · intro hh q hq
    have := hh q hq
    simpa using this
  · intro hh q hq
    simpa using hh q hq

theorem mapFst_eraseA_sublist {α : Type} (l : List (Str × α)) (k : Str) :
    ((eraseA l k).map Prod.fst).Sublist (l.map Prod.fst) := by
  induction l with
  | nil => simp [eraseA]
  | cons p rest ih =>
    by_cases h : p.1 = k
    · simp only [eraseA, if_pos h, List.map_cons]
      exact ih.trans (List.sublist_cons_self _ _)
    · simp only [eraseA, if_neg h, List.map_cons]
      exact ih.cons₂ _

theorem lookupA_mem_keys {α : Type} (l : List (Str × α)) (k : Str) (v : α)
    (h : lookupA l k = some v) : k ∈ l.map Prod.fst := by
  induction l with
  | nil => simp [lookupA] at h
  | cons p rest ih =>
    by_cases hp : p.1 = k
    · rw [List.map_cons, hp]
      exact List.mem_cons_self k _
    · simp only [lookupA, if_neg hp] at h
      exact List.mem_cons_of_mem _ (ih h)

/-! ## Lemmas: slot lists -/

theorem getSlot_eq_none (slots : List (Int × List Str)) (sc : Int) :
    getSlot slots sc = none ↔ ∀ p ∈ slots, p.1 ≠ sc := by
  induction slots with
  | nil => simp [getSlot]
  | cons p rest ih =>
    by_cases h : p.1 = sc
    · simp only [getSlot, if_pos h, List.forall_mem_cons]
      constructor
      · intro hh; exact absurd hh (by simp)
      · intro hh; exact absurd h hh.1
    · simp only [getSlot, if_neg h, List.forall_mem_cons, ih]
      constructor
      · intro hh; exact ⟨h, hh⟩
      · intro hh; exact hh.2

theorem getSlot_mem (slots : List (Int × List Str)) (sc : Int) (l : List Str)
    (h : getSlot slots sc = some l) : (sc, l) ∈ slots := by
  induction slots with
  | nil => simp [getSlot] at h
  | cons p rest ih =>
    by_cases hp : p.1 = sc
    · simp only [getSlot, if_pos hp, Option.some_inj] at h
      have : p = (sc, l) := by
        calc p = (p.1, p.2) := rfl
          _ = (sc, l) := by rw [hp, h]
      exact this ▸ List.mem_cons_self p rest
    · simp only [getSlot, if_neg hp] at h
      exact List.mem_cons_of_mem _ (ih h)

theorem getSlot_setSlot_self (slots : List (Int × List Str)) (sc : Int)
    (v l : List Str) (h : getSlot slots sc = some l) :
    getSlot (setSlot slots sc v) sc = some v := by
  induction slots with
  | nil => simp [getSlot] at h
  | cons p rest ih =>
    by_cases hp : p.1 = sc
    · simp [setSlot, hp, getSlot]
    · simp only [getSlot, if_neg hp] at h
      simp [setSlot, hp, getSlot, ih h]

theorem getSlot_setSlot_ne (slots : List (Int × List Str)) (sc sc2 : Int)
    (v : List Str) (h : sc2 ≠ sc) :
    getSlot (setSlot slots sc v) sc2 = getSlot slots sc2 := by
  induction slots with
  | nil => simp [setSlot, getSlot]
  | cons p rest ih =>
    by_cases hp : p.1 = sc
    · have h1 : ¬ (sc = sc2) := fun hh => h hh.symm
      have h2 : ¬ (p.1 = sc2) := by rw [hp]; exact h1
      simp [setSlot, hp, getSlot, h1, h2, ih]
    · by_cases hp2 : p.1 = sc2 <;> simp [setSlot, hp, getSlot, hp2, ih, h]

theorem getSlot_insertSlot_self (slots : List (Int × List Str)) (sc : Int)
    (v : List Str) : getSlot (insertSlot slots sc v) sc = some v := by
  induction slots with
  | nil => simp [insertSlot, getSlot]
  | cons p rest ih =>
    by_cases hle : sc ≤ p.1
    · simp [insertSlot, hle, getSlot]
    · have : ¬ (p.1 = sc) := fun hh => hle (le_of_eq hh.symm)
      simp [insertSlot, hle, getSlot, this, ih]

theorem getSlot_insertSlot_ne (slots : List (Int × List Str)) (sc sc2 : Int)
    (v : List Str) (h : sc2 ≠ sc) :
    getSlot (insertSlot slots sc v) sc2 = getSlot slots sc2 := by
  have h1 : ¬ (sc = sc2) := fun hh => h hh.symm
  induction slots with
  | nil => simp [insertSlot, getSlot, h1]
  | cons p rest ih =>
    by_cases hle : sc ≤ p.1
    · simp [insertSlot, hle, getSlot, h1]
    · by_cases hp2 : p.1 = sc2
      · have h3 : ¬ sc ≤ sc2 := by rw [← hp2]; exact hle
        simp [insertSlot, hle, getSlot, hp2, h3]
      · simp [insertSlot, hle, getSlot, hp2, ih]

theorem getSlot_dropSlot_ne (slots : List (Int × List Str)) (sc sc2 : Int)
    (h : sc2 ≠ sc) : getSlot (dropSlot slots sc) sc2 = getSlot slots sc2 := by
  induction slots with
  | nil => simp [dropSlot]
  | cons p rest ih =>
    by_cases hp : p.1 = sc
    · have h3 : ¬ (sc = sc2) := fun hh => h hh.symm
      simp [dropSlot, hp, getSlot, h3, ih]
    · by_cases hp2 : p.1 = sc2 <;> simp [dropSlot, hp, getSlot, hp2, ih, h]

theorem dropSlot_sublist (slots : List (Int × List Str)) (sc : Int) :
    (dropSlot slots sc).Sublist slots := by
  induction slots with
  | nil => simp [dropSlot]
  | cons p rest ih =>
    by_cases h : p.1 = sc
    · simp only [dropSlot, if_pos h]
      exact List.sublist_cons_self _ _
    · simp only [dropSlot, if_neg h]
      exact ih.cons₂ _

theorem removeFirst_sublist (l : List Str) (v : Str) :
    (removeFirst l v).Sublist l := by
  induction l with
  | nil => simp [removeFirst]
  | cons x rest ih =>
    by_cases h : x = v
    · simp only [removeFirst, if_pos h]
      exact List.sublist_cons_self _ _
    · simp only [removeFirst, if_neg h]
      exact ih.cons₂ _

theorem mem_removeFirst_of_ne (l : List Str) (v w : Str) (h : w ≠ v)
    (hm : w ∈ l) : w ∈ removeFirst l v := by
  induction l with
  | nil => simp at hm
  | cons x rest ih =>
    by_cases hx : x = v
    · simp only [removeFirst, if_pos hx]
      rcases List.mem_cons.mp hm with hm | hm
      · exact absurd (hm.trans hx) h
      · exact hm
    · simp only [removeFirst, if_neg hx]
      rcases List.mem_cons.mp hm with hm | hm
      · rw [hm]; exact List.mem_cons_self x _
      · exact List.mem_cons_of_mem _ (ih hm)

theorem not_mem_removeFirst_of_nodup (l : List Str) (v : Str) (hl : l.Nodup) :
    v ∉ removeFirst l v := by
  induction l with
  | nil => simp [removeFirst]
  | cons x rest ih =>
    rcases List.nodup_cons.mp hl with ⟨hx, hrest⟩
    by_cases h : x = v
    · simp only [removeFirst, if_pos h]
      exact h ▸ hx
    · simp only [removeFirst, if_neg h]
      intro hm
      rcases List.mem_cons.mp hm with hm | hm
      · exact h hm.symm
      · exact ih hrest hm

theorem length_removeFirst (l : List Str) (v : Str) (h : v ∈ l) :
    (removeFirst l v).length = l.length - 1 := by
  induction l with
  | nil => simp at h
  | cons x rest ih =>
    by_cases hx : x = v
    · simp [removeFirst, hx]
    · rcases List.mem_cons.mp h with h | h
      · exact absurd h.symm hx
      · simp only [removeFirst, if_neg hx, List.length_cons, ih h]
        have : 1 ≤ rest.length := List.length_pos.mpr (List.ne_nil_of_mem h)
        omega

theorem removeFirst_append_of_mem (l l2 : List Str) (v : Str) (h : v ∈ l) :
    removeFirst (l ++ l2) v = removeFirst l v ++ l2 := by
  induction l with
  | nil => simp at h
  | cons x rest ih =>
    by_cases hx : x = v
    · simp [removeFirst, hx]
    · rcases List.mem_cons.mp h with h | h
      · exact absurd h.symm hx
      · simp [removeFirst, hx, ih h]

theorem removeFirst_append_self (l : List Str) (v : Str) (h : v ∉ l) :
    removeFirst (l ++ [v]) v = l := by
  induction l with
  | nil => simp [removeFirst]
  | cons x rest ih =>
    have hx : x ≠ v := fun hh => h (by rw [hh]; exact List.mem_cons_self v rest)
    have hr : v ∉ rest := fun hh => h (List.mem_cons_of_mem _ hh)
    simp [removeFirst, hx, ih hr]

theorem mem_of_mem_removeFirst (l : List Str) (v w : Str)
    (h : w ∈ removeFirst l v) : w ∈ l :=
  (removeFirst_sublist l v).mem h

/-! ## Lemmas: virtual-node key strings -/

theorem digitChar_ne_underscore (d : Nat) : digitChar d ≠ '_' := by
  unfold digitChar
  split_ifs <;> decide

theorem digitChar_inj (a b : Nat) (ha : a < 10) (hb : b < 10)
    (h : digitChar a = digitChar b) : a = b := by
  interval_cases a <;> interval_cases b <;> simp_all [digitChar]

theorem natCharsAux_ne_nil (fuel n : Nat) (h : n < fuel) :
    natCharsAux fuel n ≠ [] := by
  cases fuel with
  | zero => omega
  | succ f =>
    simp only [natCharsAux]
    split_ifs with h1
    · simp
    · simp

theorem mem_natCharsAux (fuel n : Nat) (h : n < fuel) (c : Char)
    (hc : c ∈ natCharsAux fuel n) : c ≠ '_' := by
  induction fuel generalizing n with
  | zero => omega
  | succ f ih =>
    simp only [natCharsAux] at hc
    split_ifs at hc with h1
    · rcases List.mem_singleton.mp hc with rfl
      exact digitChar_ne_underscore n
    · rcases List.mem_append.mp hc with hc | hc
      · have hn : 0 < n := by omega
        have : n / 10 < f := by
          have h2 : n / 10 < n := Nat.div_lt_self hn (by norm_num)
          omega
        exact ih (n / 10) this hc
      · rcases List.mem_singleton.mp hc with rfl
        exact digitChar_ne_underscore (n % 10)

theorem underscore_not_mem_natChars (n : Nat) : '_' ∉ natChars n := by
  intro h
  exact mem_natCharsAux (n + 1) n (Nat.lt_succ_self n) '_' h rfl

theorem natCharsAux_fuel (f1 f2 n : Nat) (h1 : n < f1) (h2 : n < f2) :
    natCharsAux f1 n = natCharsAux f2 n := by
  induction f1 generalizing n f2 with
  | zero => omega
  | succ f ih =>
    cases f2 with
    | zero => omega
    | succ g =>
      simp only [natCharsAux]
      split_ifs with hlt
      · rfl
      · have hn : 0 < n := by omega
        have hd : n / 10 < n := Nat.div_lt_self hn (by norm_num)
        rw [ih g (n / 10) (by omega) (by omega)]

theorem natCharsAux_inj (f1 f2 n m : Nat) (h1 : n < f1) (h2 : m < f2)
    (h : natCharsAux f1 n = natCharsAux f2 m) : n = m := by
  induction f1 generalizing n m f2 with
  | zero => omega
  | succ f ih =>
    cases f2 with
    | zero => omega
    | succ g =>
      simp only [natCharsAux] at h
      split_ifs at h with ha hb hb
      · exact digitChar_inj n m ha hb (List.singleton_inj.mp h)
      · exfalso
        have hm : 0 < m := by omega
        have hmd : m / 10 < g := by
          have := Nat.div_lt_self hm (show 1 < 10 by norm_num)
          omega
        have hne := natCharsAux_ne_nil g (m / 10) hmd
        have hlen := congrArg List.length h
        simp only [List.length_append, List.length_singleton] at hlen
        have hzero : (natCharsAux g (m / 10)).length = 0 := by omega
        exact hne (List.length_eq_zero.mp hzero)
      · exfalso
        have hn : 0 < n := by omega
        have hnd : n / 10 < f := by
          have := Nat.div_lt_self hn (show 1 < 10 by norm_num)
          omega
        have hne := natCharsAux_ne_nil f (n / 10) hnd
        have hlen := congrArg List.length h
        simp only [List.length_append, List.length_singleton] at hlen
        have hzero : (natCharsAux f (n / 10)).length = 0 := by omega
        exact hne (List.length_eq_zero.mp hzero)
      · have hn : 0 < n := by omega
        have hm : 0 < m := by omega
        have hdn : n / 10 < f := by
          have := Nat.div_lt_self hn (show 1 < 10 by norm_num)
          omega
        have hdm : m / 10 < g := by
          have := Nat.div_lt_self hm (show 1 < 10 by norm_num)
          omega
        have hparts := List.append_inj' h (by simp)
        have hquot : n / 10 = m / 10 := ih g (n / 10) (m / 10) hdn hdm hparts.1
        have hdig : digitChar (n % 10) = digitChar (m % 10) :=
          List.singleton_inj.mp hparts.2
        have hrem : n % 10 = m % 10 :=
          digitChar_inj _ _ (Nat.mod_lt n (by norm_num)) (Nat.mod_lt m (by norm_num)) hdig
        omega

theorem natChars_inj (n m : Nat) (h : natChars n = natChars m) : n = m :=
  natCharsAux_inj (n + 1) (m + 1) n m (Nat.lt_succ_self n) (Nat.lt_succ_self m) h

theorem lastUnderscore_of_not_mem (s : Str) (h : '_' ∉ s) :
    lastUnderscore s = none := by
  induction s with
  | nil => rfl
  | cons c rest ih =>
    have hc : c ≠ '_' := fun hh => h (by rw [hh]; exact List.mem_cons_self _ _)
    have hr : '_' ∉ rest := fun hh => h (List.mem_cons_of_mem _ hh)
    simp [lastUnderscore, ih hr, hc]

theorem lastUnderscore_append_tail (n d : Str) (h : '_' ∉ d) :
    lastUnderscore (n ++ '_' :: d) = some n.length := by
  induction n with
  | nil => simp [lastUnderscore, lastUnderscore_of_not_mem d h]
  | cons c rest ih => simp [lastUnderscore, ih]

theorem getNodeID_rawNodeKey (nodeID : Str) (i : Nat) :
    getNodeID (rawNodeKey nodeID i) = nodeID := by
  unfold getNodeID rawNodeKey
  rw [lastUnderscore_append_tail nodeID (natChars i) (underscore_not_mem_natChars i)]
  simp [List.take_left]

theorem rawNodeKey_inj (n m : Str) (i j : Nat)
    (h : rawNodeKey n i = rawNodeKey m j) : n = m ∧ i = j := by
  have hn : n = m := by
    have h1 := getNodeID_rawNodeKey n i
    have h2 := getNodeID_rawNodeKey m j
    rw [← h1, ← h2, h]
  constructor
  · exact hn
  · unfold rawNodeKey at h
    rw [hn] at h
    have h3 := List.append_cancel_left h
    have h5 : natChars i = natChars j := by injection h3
    exact natChars_inj i j h5

theorem rawNodeKey_ne_nodeID (n : Str) (i : Nat) : rawNodeKey n i ≠ n := by
  intro h
  have := congrArg List.length h
  simp [rawNodeKey] at this

/-! ## Lemmas: slot structure and operation effects -/

theorem mem_setSlot_elim (slots : List (Int × List Str)) (sc : Int) (v : List Str)
    (p : Int × List Str) (hp : p ∈ setSlot slots sc v) :
    p ∈ slots ∨ (p.1 = sc ∧ p.2 = v) := by
  induction slots with
  | nil => simp [setSlot] at hp
  | cons q rest ih =>
    by_cases hq : q.1 = sc
    · rw [setSlot, if_pos hq] at hp
      rcases List.mem_cons.mp hp with rfl | hp
      · exact Or.inr ⟨rfl, rfl⟩
      · exact Or.inl (List.mem_cons_of_mem _ hp)
    · rw [setSlot, if_neg hq] at hp
      rcases List.mem_cons.mp hp with rfl | hp
      · exact Or.inl (List.mem_cons_self _ _)
      · rcases ih hp with hold | hnew
        · exact Or.inl (List.mem_cons_of_mem _ hold)
        · exact Or.inr hnew

theorem mapFst_setSlot (slots : List (Int × List Str)) (sc : Int) (v : List Str) :
    (setSlot slots sc v).map Prod.fst = slots.map Prod.fst := by
  induction slots with
  | nil => simp [setSlot]
  | cons p rest ih =>
    by_cases hp : p.1 = sc
    · simp [setSlot, hp]
    · simp [setSlot, hp, ih]

theorem sorted_setSlot (slots : List (Int × List Str)) (sc : Int) (v : List Str)
    (h : SortedSlots slots) : SortedSlots (setSlot slots sc v) := by
  unfold SortedSlots at *
  rw [mapFst_setSlot]
  exact h

theorem mapFst_insertSlot_mem (slots : List (Int × List Str)) (sc : Int)
    (v : List Str) (a : Int) :
    a ∈ (insertSlot slots sc v).map Prod.fst ↔ a = sc ∨ a ∈ slots.map Prod.fst := by
  induction slots with
  | nil => simp [insertSlot]
  | cons p rest ih =>
    by_cases hle : sc ≤ p.1
    · simp [insertSlot, hle]
      try tauto
    · simp [insertSlot, hle, ih]
      try tauto

theorem sorted_insertSlot (slots : List (Int × List Str)) (sc : Int) (v : List Str)
    (h : SortedSlots slots) (hn : getSlot slots sc = none) :
    SortedSlots (insertSlot slots sc v) := by
  induction slots with
  | nil => simp [insertSlot, SortedSlots]
  | cons p rest ih =>
    rw [SortedSlots, List.map_cons, List.pairwise_cons] at h
    rw [getSlot_eq_none] at hn
    have hpsc : p.1 ≠ sc := hn p (List.mem_cons_self _ _)
    have hnrest : getSlot rest sc = none := by
      rw [getSlot_eq_none]
      exact fun q hq => hn q (List.mem_cons_of_mem _ hq)
    by_cases hle : sc ≤ p.1
    · have hlt : sc < p.1 := lt_of_le_of_ne hle (fun hh => hpsc hh.symm)
      rw [insertSlot, if_pos hle, SortedSlots, List.map_cons, List.map_cons,
        List.pairwise_cons]
      constructor
      · intro a ha
        rcases List.mem_cons.mp ha with rfl | ha
        · exact hlt
        · exact lt_trans hlt (h.1 a ha)
      · exact List.pairwise_cons.mpr ⟨h.1, h.2⟩
    · rw [insertSlot, if_neg hle, SortedSlots, List.map_cons, List.pairwise_cons]
      constructor
      · intro a ha
        rcases (mapFst_insertSlot_mem rest sc v a).mp ha with rfl | ha
        · exact lt_of_not_le hle
        · exact h.1 a ha
      · exact ih h.2 hnrest

theorem sorted_dropSlot (slots : List (Int × List Str)) (sc : Int)
    (h : SortedSlots slots) : SortedSlots (dropSlot slots sc) :=
  List.Pairwise.sublist ((dropSlot_sublist slots sc).map Prod.fst) h

theorem getSlot_dropSlot_self (slots : List (Int × List Str)) (sc : Int)
    (h : SortedSlots slots) : getSlot (dropSlot slots sc) sc = none := by
  induction slots with
  | nil => simp [dropSlot, getSlot]
  | cons p rest ih =>
    rw [SortedSlots, List.map_cons, List.pairwise_cons] at h
    by_cases hp : p.1 = sc
    · rw [dropSlot, if_pos hp, getSlot_eq_none]
      intro q hq
      have := h.1 q.1 (List.mem_map_of_mem Prod.fst hq)
      omega
    · rw [dropSlot, if_neg hp, getSlot, if_neg hp]
      exact ih h.2

/-! Characterisation of hrAdd and hrRem -/

theorem slotHas_hrAdd_self (s : RingState) (sc : Int) (k : Str) :
    slotHas (hrAdd s sc k) sc k := by
  unfold slotHas hrAdd
  cases hg : getSlot s.slots sc with
  | none =>
    refine ⟨[k], ?_, List.mem_singleton_self k⟩
    simp [getSlot_insertSlot_self]
  | some l =>
    by_cases hm : k ∈ l
    · simp only [if_pos hm]
      exact ⟨l, hg, hm⟩
    · simp only [if_neg hm]
      refine ⟨l ++ [k], ?_, by simp⟩
      exact getSlot_setSlot_self s.slots sc (l ++ [k]) l hg

theorem slotHas_hrAdd_of (s : RingState) (sc : Int) (k : Str) (sc2 : Int) (v : Str)
    (h : slotHas s sc2 v) : slotHas (hrAdd s sc k) sc2 v := by
  rcases h with ⟨l2, hg2, hv⟩
  unfold slotHas hrAdd
  cases hg : getSlot s.slots sc with
  | none =>
    have hne : sc2 ≠ sc := by
      intro hh
      rw [hh, hg] at hg2
      exact absurd hg2 (by simp)
    refine ⟨l2, ?_, hv⟩
    simp [getSlot_insertSlot_ne s.slots sc sc2 [k] hne, hg2]
  | some l =>
    by_cases hm : k ∈ l
    · simp only [if_pos hm]
      exact ⟨l2, hg2, hv⟩
    · simp only [if_neg hm]
      by_cases hsc : sc2 = sc
      · subst hsc
        have : l2 = l := by rw [hg] at hg2; exact (Option.some_inj.mp hg2).symm
        subst this
        refine ⟨l2 ++ [k], ?_, by simp [hv]⟩
        exact getSlot_setSlot_self s.slots sc2 (l2 ++ [k]) l2 hg
      · refine ⟨l2, ?_, hv⟩
        simp [getSlot_setSlot_ne s.slots sc sc2 (l ++ [k]) hsc, hg2]

theorem slotHas_hrAdd_elim (s : RingState) (sc : Int) (k : Str) (sc2 : Int) (v : Str)
    (h : slotHas (hrAdd s sc k) sc2 v) : slotHas s sc2 v ∨ (sc2 = sc ∧ v = k) := by
  rcases h with ⟨l2, hg2, hv⟩
  unfold hrAdd at hg2
  cases hg : getSlot s.slots sc with
  | none =>
    rw [hg] at hg2
    simp only at hg2
    by_cases hsc : sc2 = sc
    · subst hsc
      rw [getSlot_insertSlot_self] at hg2
      have : l2 = [k] := Option.some_inj.mp hg2.symm
      subst this
      right
      exact ⟨rfl, List.mem_singleton.mp hv⟩
    · rw [getSlot_insertSlot_ne s.slots sc sc2 [k] hsc] at hg2
      exact Or.inl ⟨l2, hg2, hv⟩
  | some l =>
    rw [hg] at hg2
    simp only at hg2
    by_cases hm : k ∈ l
    · rw [if_pos hm] at hg2
      exact Or.inl ⟨l2, hg2, hv⟩
    · rw [if_neg hm] at hg2
      by_cases hsc : sc2 = sc
      · subst hsc
        rw [getSlot_setSlot_self s.slots sc2 (l ++ [k]) l hg] at hg2
        have : l2 = l ++ [k] := Option.some_inj.mp hg2.symm
        subst this
        rcases List.mem_append.mp hv with hv | hv
        · exact Or.inl ⟨l, hg, hv⟩
        · right
          exact ⟨rfl, List.mem_singleton.mp hv⟩
      · rw [getSlot_setSlot_ne s.slots sc sc2 (l ++ [k]) hsc] at hg2
        exact Or.inl ⟨l2, hg2, hv⟩

theorem hrAdd_rep (s : RingState) (sc : Int) (k : Str) :
    (hrAdd s sc k).nodeToReplicas = s.nodeToReplicas := by
  unfold hrAdd
  cases getSlot s.slots sc with
  | none => rfl
  | some l =>
    by_cases hm : k ∈ l
    · simp [hm]
    · simp [hm]

theorem hrAdd_data (s : RingState) (sc : Int) (k : Str) :
    (hrAdd s sc k).nodeToDataKey = s.nodeToDataKey := by
  unfold hrAdd
  cases getSlot s.slots sc with
  | none => rfl
  | some l =>
    by_cases hm : k ∈ l
    · simp [hm]
    · simp [hm]

theorem hrRem_ok_elim (s : RingState) (sc : Int) (k : Str) (s2 : RingState)
    (h : hrRem s sc k = .ok s2) :
    ∃ l, getSlot s.slots sc = some l ∧ k ∈ l ∧
      s2.nodeToReplicas = s.nodeToReplicas ∧
      s2.nodeToDataKey = eraseA s.nodeToDataKey k ∧
      ((l.length > 1 ∧ s2.slots = setSlot s.slots sc (removeFirst l k)) ∨
       (l.length ≤ 1 ∧ s2.slots = dropSlot s.slots sc)) := by
  unfold hrRem at h
  cases hg : getSlot s.slots sc with
  | none => rw [hg] at h; exact absurd h (by simp)
  | some l =>
    rw [hg] at h
    simp only at h
    by_cases hm : k ∈ l
    · rw [if_pos hm] at h
      by_cases hlen : l.length > 1
      · rw [if_pos hlen] at h
        have h2 := Except.ok.inj h
        refine ⟨l, rfl, hm, ?_, ?_, Or.inl ⟨hlen, ?_⟩⟩ <;> rw [← h2]
      · rw [if_neg hlen] at h
        have h2 := Except.ok.inj h
        refine ⟨l, rfl, hm, ?_, ?_, Or.inr ⟨by omega, ?_⟩⟩ <;> rw [← h2]
    · rw [if_neg hm] at h
      exact absurd h (by simp)


theorem hrRem_slotHas_sub (s : RingState) (sc : Int) (k : Str) (s2 : RingState)
    (hs : SortedSlots s.slots) (h : hrRem s sc k = .ok s2)
    (sc2 : Int) (v : Str) (hv : slotHas s2 sc2 v) : slotHas s sc2 v := by
  rcases hrRem_ok_elim s sc k s2 h with ⟨l, hg, hm, _, _, hbr | hbr⟩
  · rcases hv with ⟨l2, hg2, hv2⟩
    rw [hbr.2] at hg2
    by_cases hsc : sc2 = sc
    · subst hsc
      rw [getSlot_setSlot_self s.slots sc2 (removeFirst l k) l hg] at hg2
      have : l2 = removeFirst l k := (Option.some_inj.mp hg2).symm
      subst this
      exact ⟨l, hg, mem_of_mem_removeFirst l k v hv2⟩
    · rw [getSlot_setSlot_ne s.slots sc sc2 (removeFirst l k) hsc] at hg2
      exact ⟨l2, hg2, hv2⟩
  · rcases hv with ⟨l2, hg2, hv2⟩
    rw [hbr.2] at hg2
    by_cases hsc : sc2 = sc
    · subst hsc
      rw [getSlot_dropSlot_self s.slots sc2 hs] at hg2
      exact absurd hg2 (by simp)
    · rw [getSlot_dropSlot_ne s.slots sc sc2 hsc] at hg2
      exact ⟨l2, hg2, hv2⟩

theorem hrRem_slotHas_keep (s : RingState) (sc : Int) (k : Str) (s2 : RingState)
    (h : hrRem s sc k = .ok s2) (sc2 : Int) (v : Str) (hne : v ≠ k)
    (hv : slotHas s sc2 v) : slotHas s2 sc2 v := by
  rcases hrRem_ok_elim s sc k s2 h with ⟨l, hg, hm, _, _, hbr | hbr⟩
  · rcases hv with ⟨l2, hg2, hv2⟩
    by_cases hsc : sc2 = sc
    · subst hsc
      have hl : l2 = l := by rw [hg] at hg2; exact (Option.some_inj.mp hg2).symm
      subst hl
      refine ⟨removeFirst l2 k, ?_, mem_removeFirst_of_ne l2 k v hne hv2⟩
      rw [hbr.2]
      exact getSlot_setSlot_self s.slots sc2 (removeFirst l2 k) l2 hg
    · refine ⟨l2, ?_, hv2⟩
      rw [hbr.2]
      rw [getSlot_setSlot_ne s.slots sc sc2 (removeFirst l k) hsc]
      exact hg2
  · rcases hv with ⟨l2, hg2, hv2⟩
    by_cases hsc : sc2 = sc
    · subst hsc
      have hl : l2 = l := by rw [hg] at hg2; exact (Option.some_inj.mp hg2).symm
      subst hl
      have : l2 = [k] := by
        cases l2 with
        | nil => simp at hv2
        | cons x rest =>
          cases rest with
          | nil =>
            have hx : x = k := (List.mem_singleton.mp hm).symm
            rw [hx]
          | cons y rest2 =>
            exfalso
            have hlen := hbr.1
            simp only [List.length_cons] at hlen
            omega
      rw [this] at hv2
      exact absurd (List.mem_singleton.mp hv2) hne
    · refine ⟨l2, ?_, hv2⟩
      rw [hbr.2]
      rw [getSlot_dropSlot_ne s.slots sc sc2 hsc]
      exact hg2

theorem hrRem_slotHas_removed (s : RingState) (sc : Int) (k : Str) (s2 : RingState)
    (hs : SortedSlots s.slots) (hnd : ∀ p ∈ s.slots, p.2.Nodup)
    (h : hrRem s sc k = .ok s2) : ¬ slotHas s2 sc k := by
  rcases hrRem_ok_elim s sc k s2 h with ⟨l, hg, hm, _, _, hbr | hbr⟩
  · intro hv
    rcases hv with ⟨l2, hg2, hv2⟩
    rw [hbr.2] at hg2
    rw [getSlot_setSlot_self s.slots sc (removeFirst l k) l hg] at hg2
    have : l2 = removeFirst l k := (Option.some_inj.mp hg2).symm
    subst this
    have hlnd : l.Nodup := hnd (sc, l) (getSlot_mem s.slots sc l hg)
    exact not_mem_removeFirst_of_nodup l k hlnd hv2
  · intro hv
    rcases hv with ⟨l2, hg2, hv2⟩
    rw [hbr.2] at hg2
    rw [getSlot_dropSlot_self s.slots sc hs] at hg2
    exact absurd hg2 (by simp)

theorem hrRem_sorted (s : RingState) (sc : Int) (k : Str) (s2 : RingState)
    (hs : SortedSlots s.slots) (h : hrRem s sc k = .ok s2) : SortedSlots s2.slots := by
  rcases hrRem_ok_elim s sc k s2 h with ⟨l, _, _, _, _, hbr | hbr⟩
  · rw [hbr.2]; exact sorted_setSlot s.slots sc (removeFirst l k) hs
  · rw [hbr.2]; exact sorted_dropSlot s.slots sc hs

theorem hrRem_nonempty (s : RingState) (sc : Int) (k : Str) (s2 : RingState)
    (hne : ∀ p ∈ s.slots, p.2 ≠ []) (h : hrRem s sc k = .ok s2) :
    ∀ p ∈ s2.slots, p.2 ≠ [] := by
  rcases hrRem_ok_elim s sc k s2 h with ⟨l, hg, hm, _, _, hbr | hbr⟩
  · intro p hp
    rw [hbr.2] at hp
    -- p is either an untouched slot of s or the rewritten slot
    by_cases hpsc : p.1 = sc
    · -- rewritten or duplicate-score slot; use the length fact
      -- membership in setSlot: elements are either old or the new pair
      have := mem_setSlot_elim s.slots sc (removeFirst l k) p hp
      rcases this with hold | hnew
      · exact hne p hold
      · rw [hnew.2]
        intro hc
        have := length_removeFirst l k hm
        rw [hc] at this
        simp at this
        omega
    · have := mem_setSlot_elim s.slots sc (removeFirst l k) p hp
      rcases this with hold | hnew
      · exact hne p hold
      · rw [hnew.2]
        intro hc
        have := length_removeFirst l k hm
        rw [hc] at this
        simp at this
        omega
  · intro p hp
    rw [hbr.2] at hp
    exact hne p ((dropSlot_sublist s.slots sc).mem hp)

theorem hrRem_nodup (s : RingState) (sc : Int) (k : Str) (s2 : RingState)
    (hnd : ∀ p ∈ s.slots, p.2.Nodup) (h : hrRem s sc k = .ok s2) :
    ∀ p ∈ s2.slots, p.2.Nodup := by
  rcases hrRem_ok_elim s sc k s2 h with ⟨l, hg, hm, _, _, hbr | hbr⟩
  · intro p hp
    rw [hbr.2] at hp
    have := mem_setSlot_elim s.slots sc (removeFirst l k) p hp
    rcases this with hold | hnew
    · exact hnd p hold
    · rw [hnew.2]
      exact ((removeFirst_sublist l k).nodup (hnd (sc, l) (getSlot_mem s.slots sc l hg)))
  · intro p hp
    rw [hbr.2] at hp
    exact hnd p ((dropSlot_sublist s.slots sc).mem hp)

/-! Frame lemmas for the data-key map operations and the migrations -/

theorem hrAddK_slots (s : RingState) (n : Str) (ks : List Str) :
    (hrAddNodeToDataKeys s n ks).slots = s.slots := rfl

theorem hrAddK_rep (s : RingState) (n : Str) (ks : List Str) :
    (hrAddNodeToDataKeys s n ks).nodeToReplicas = s.nodeToReplicas := rfl

theorem hrDelK_slots (s : RingState) (n : Str) (ks : List Str) :
    (hrDeleteNodeToDataKeys s n ks).slots = s.slots := by
  unfold hrDeleteNodeToDataKeys
  cases lookupA s.nodeToDataKey n with
  | none => rfl
  | some old => by_cases h : subtractKeys old ks = [] <;> simp [h]

theorem hrDelK_rep (s : RingState) (n : Str) (ks : List Str) :
    (hrDeleteNodeToDataKeys s n ks).nodeToReplicas = s.nodeToReplicas := by
  unfold hrDeleteNodeToDataKeys
  cases lookupA s.nodeToDataKey n with
  | none => rfl
  | some old => by_cases h : subtractKeys old ks = [] <;> simp [h]

theorem migrateIn_frame (c : CH) (s : RingState) (vs : Int) (n : Str) :
    ((migrateIn c s vs n).2).slots = s.slots ∧
    ((migrateIn c s vs n).2).nodeToReplicas = s.nodeToReplicas := by
  unfold migrateIn
  dsimp only
  repeat' split
  all_goals
    first
    | exact ⟨rfl, rfl⟩
    | exact ⟨(hrAddK_slots _ _ _).trans (hrDelK_slots _ _ _),
        (hrAddK_rep _ _ _).trans (hrDelK_rep _ _ _)⟩

theorem migrateOut_frame (c : CH) (s : RingState) (vs : Int) (n : Str) :
    ((migrateOut c s vs n).2).slots = s.slots ∧
    ((migrateOut c s vs n).2).nodeToReplicas = s.nodeToReplicas := by
  unfold migrateOut
  dsimp only
  repeat' split
  all_goals
    first
    | exact ⟨rfl, rfl⟩
    | exact ⟨(hrAddK_slots _ _ _).trans (hrDelK_slots _ _ _),
        (hrAddK_rep _ _ _).trans (hrDelK_rep _ _ _)⟩

/-! Ceiling helpers -/

theorem getSlot_isSome_of_mem (slots : List (Int × List Str)) (t : Int)
    (p : Int × List Str) (hp : p ∈ slots) (ht : p.1 = t) :
    ∃ l, getSlot slots t = some l := by
  induction slots with
  | nil => simp at hp
  | cons q rest ih =>
    by_cases hq : q.1 = t
    · exact ⟨q.2, by rw [getSlot, if_pos hq]⟩
    · rcases List.mem_cons.mp hp with rfl | hp
      · exact absurd ht hq
      · rw [getSlot, if_neg hq]
        exact ih hp

theorem ceilingQ_mem (slots : List (Int × List Str)) (x t : Int)
    (h : ceilingQ slots x = some t) : ∃ p ∈ slots, p.1 = t := by
  induction slots with
  | nil => simp [ceilingQ] at h
  | cons p rest ih =>
    by_cases hle : x ≤ p.1
    · rw [ceilingQ, if_pos hle] at h
      exact ⟨p, List.mem_cons_self _ _, Option.some_inj.mp h⟩
    · rw [ceilingQ, if_neg hle] at h
      rcases ih h with ⟨q, hq, hqt⟩
      exact ⟨q, List.mem_cons_of_mem _ hq, hqt⟩

theorem migrateIn_noMigrator (c : CH) (s : RingState) (vs : Int) (n : Str)
    (h : c.hasMigrator = false) : migrateIn c s vs n = (.ok ([], [], []), s) := by
  unfold migrateIn
  rw [if_pos h]

theorem migrateOut_noMigrator (c : CH) (s : RingState) (vs : Int) (n : Str)
    (h : c.hasMigrator = false) : migrateOut c s vs n = (.ok ([], [], []), s) := by
  unfold migrateOut
  rw [if_pos h]

/-! ## Lemmas: ceiling and floor -/

theorem ceilingQ_none_iff (slots : List (Int × List Str)) (x : Int) :
    ceilingQ slots x = none ↔ ∀ p ∈ slots, p.1 < x := by
  induction slots with
  | nil => simp [ceilingQ]
  | cons p rest ih =>
    by_cases hle : x ≤ p.1
    · rw [ceilingQ, if_pos hle]
      simp only [List.forall_mem_cons]
      constructor
      · intro hh; exact absurd hh (by simp)
      · intro hh; exact absurd hh.1 (not_lt.mpr hle)
    · rw [ceilingQ, if_neg hle]
      simp only [List.forall_mem_cons, ih]
      constructor
      · intro hh; exact ⟨lt_of_not_le hle, hh⟩
      · intro hh; exact hh.2

theorem ceilingQ_least (slots : List (Int × List Str)) (x : Int)
    (hs : SortedSlots slots) (p : Int × List Str) (hp : p ∈ slots) (hx : x ≤ p.1) :
    ∃ t, ceilingQ slots x = some t ∧ x ≤ t ∧ (∃ l, getSlot slots t = some l) ∧
      ∀ q ∈ slots, x ≤ q.1 → t ≤ q.1 := by
  induction slots with
  | nil => simp at hp
  | cons h0 rest ih =>
    rw [SortedSlots, List.map_cons, List.pairwise_cons] at hs
    by_cases hle : x ≤ h0.1
    · refine ⟨h0.1, by rw [ceilingQ, if_pos hle], hle,
        ⟨h0.2, by rw [getSlot, if_pos rfl]⟩, ?_⟩
      intro q hq _
      rcases List.mem_cons.mp hq with rfl | hq
      · exact le_refl _
      · exact le_of_lt (hs.1 q.1 (List.mem_map_of_mem Prod.fst hq))
    · have hphp : p ∈ rest := by
        rcases List.mem_cons.mp hp with rfl | hh
        · exact absurd hx hle
        · exact hh
      rcases ih hs.2 hphp with ⟨t, ht, hxt, ⟨l, hl⟩, hmin⟩
      refine ⟨t, by rw [ceilingQ, if_neg hle]; exact ht, hxt, ⟨l, ?_⟩, ?_⟩
      · rw [getSlot]
        have : h0.1 ≠ t := by
          intro hh
          exact hle (hh ▸ hxt)
        rw [if_neg this]
        exact hl
      · intro q hq hxq
        rcases List.mem_cons.mp hq with rfl | hq
        · exact absurd hxq hle
        · exact hmin q hq hxq

theorem ceilingQ_self (slots : List (Int × List Str)) (x : Int) (l : List Str)
    (hs : SortedSlots slots) (hg : getSlot slots x = some l) :
    ceilingQ slots x = some x := by
  induction slots with
  | nil => simp [getSlot] at hg
  | cons p rest ih =>
    rw [SortedSlots, List.map_cons, List.pairwise_cons] at hs
    by_cases hp : p.1 = x
    · rw [ceilingQ, if_pos (le_of_eq hp.symm), hp]
    · rw [getSlot, if_neg hp] at hg
      have hmem := getSlot_mem rest x l hg
      have hpx : p.1 < x := hs.1 x (by simpa using List.mem_map_of_mem Prod.fst hmem)
      rw [ceilingQ, if_neg (not_le.mpr hpx)]
      exact ih hs.2 hg

theorem floorQ_none_of_gt (slots : List (Int × List Str)) (x : Int)
    (h : ∀ p ∈ slots, x < p.1) : floorQ slots x = none := by
  cases slots with
  | nil => rfl
  | cons p rest =>
    rw [floorQ, if_pos (h p (List.mem_cons_self _ _))]

theorem floorQ_self (slots : List (Int × List Str)) (x : Int) (l : List Str)
    (hs : SortedSlots slots) (hg : getSlot slots x = some l) :
    floorQ slots x = some x := by
  induction slots with
  | nil => simp [getSlot] at hg
  | cons p rest ih =>
    rw [SortedSlots, List.map_cons, List.pairwise_cons] at hs
    by_cases hp : p.1 = x
    · rw [floorQ, if_neg (by rw [hp]; exact lt_irrefl x)]
      have hnone : floorQ rest x = none := by
        apply floorQ_none_of_gt
        intro q hq
        have := hs.1 q.1 (List.mem_map_of_mem Prod.fst hq)
        omega
      rw [hnone, hp]
    · rw [getSlot, if_neg hp] at hg
      have hmem := getSlot_mem rest x l hg
      have hpx : p.1 < x := hs.1 x (by simpa using List.mem_map_of_mem Prod.fst hmem)
      rw [floorQ, if_neg (by omega)]
      rw [ih hs.2 hg]

theorem hrFirst_min (slots : List (Int × List Str)) (hs : SortedSlots slots)
    (q : Int × List Str) (hq : q ∈ slots) : hrFirst slots ≤ q.1 := by
  cases slots with
  | nil => simp at hq
  | cons p rest =>
    rw [SortedSlots, List.map_cons, List.pairwise_cons] at hs
    rw [hrFirst]
    rcases List.mem_cons.mp hq with rfl | hq
    · exact le_refl _
    · exact le_of_lt (hs.1 q.1 (List.mem_map_of_mem Prod.fst hq))

/-! ## Helper lemmas for the claim theorems -/

theorem hrAdd_of_slotHas (s : RingState) (sc : Int) (v : Str)
    (h : slotHas s sc v) : hrAdd s sc v = s := by
  rcases h with ⟨l, hg, hm⟩
  unfold hrAdd
  rw [hg]
  simp [hm]

theorem mem_insertKeys_single (old : List Str) (k : Str) : k ∈ insertKeys old [k] := by
  by_cases h : k ∈ old <;> simp [insertKeys, h]

/-! ## Claim theorems (first group) -/

/-- C1 counterexample: in the score-wrap scenario (A_0 at 10, B_0 at M-10,
data key d at 5, new virtual node X_0 at 3), GetNode(d) returns A_0 as the
claim states, but the migration computed by migrateIn after inserting X_0 is
empty: d is not moved from node A to node X, and after the whole AddNode(X)
call d is still registered under node A. -/
theorem c1_wrap_counterexample :
    (getNode cfgWrap ringWrap (strChars "d")).1 = .ok (strChars "A_0") ∧
    (migrateIn cfgWrap
        (hrAdd (getNode cfgWrap ringWrap (strChars "d")).2 3 (strChars "X_0"))
        3 (strChars "X")).1 = .ok (strChars "A", strChars "X", []) ∧
    lookupA ((addNode cfgWrap (getNode cfgWrap ringWrap (strChars "d")).2
        (strChars "X") 1).2).nodeToDataKey (strChars "A") = some [strChars "d"] := by
  refine ⟨rfl, rfl, rfl⟩

/-- C1 amended: GetNode(d) returns A_0 (the ceiling of 5); AddNode(X) with a
single virtual node X_0 at score 3 succeeds, the migration migrateIn computes
for X_0 is empty — d's score 5 lies outside the wrapped arc (M-10, 3] — and d
remains registered under node A, with X receiving an empty data-key entry. -/
theorem c1_wrap_amended :
    (getNode cfgWrap ringWrap (strChars "d")).1 = .ok (strChars "A_0") ∧
    (addNode cfgWrap (getNode cfgWrap ringWrap (strChars "d")).2 (strChars "X") 1).1
      = .ok () ∧
    (migrateIn cfgWrap
        (hrAdd (getNode cfgWrap ringWrap (strChars "d")).2 3 (strChars "X_0"))
        3 (strChars "X")).1 = .ok (strChars "A", strChars "X", []) ∧
    lookupA ((addNode cfgWrap (getNode cfgWrap ringWrap (strChars "d")).2
        (strChars "X") 1).2).nodeToDataKey (strChars "A") = some [strChars "d"] ∧
    lookupA ((addNode cfgWrap (getNode cfgWrap ringWrap (strChars "d")).2
        (strChars "X") 1).2).nodeToDataKey (strChars "X") = some [] := by
  refine ⟨rfl, rfl, rfl, rfl, rfl⟩

/-- C2 counterexample: RemoveNode of the sole node A (whose single replica
lives in the slot at score 7) with a registered data key and a migrator
configured completes with an error, and in the resulting state the ring slot
still holds the virtual-node key A_0 while the node-to-replicas map is empty:
A_0 no longer decodes to a present node. -/
theorem c2_invariant_counterexample :
    (removeNode cfgSole ringSole (strChars "A")).1 = .error "no other no" ∧
    ¬ ringConsistent (removeNode cfgSole ringSole (strChars "A")).2 := by
  exact ⟨rfl, by decide⟩

/-- C3: evaluating RemoveNode in the sole-node scenario (node A with one
replica, one registered data key, migrator configured): the call fails, but
with the misspelled error string "no other no" produced by the sole-slot
branch of migrateOut, not the intended "no other node". -/
theorem c3_sole_node_error :
    (removeNode cfgSole ringSole (strChars "A")).1 = .error "no other no" ∧
    "no other no" ≠ "no other node" := by
  exact ⟨rfl, by decide⟩

/-- C4 counterexample: after the skiplist ring lock has been released the
stored owner token is the empty string, so Unlock by a caller (token "8_21")
fails with "not your lock" — not with "not locked" as the claim states. -/
theorem c4_unlock_counterexample :
    (unlockRing { owner := "" } "8_21").1 = .error "not your lock" ∧
    (unlockRing { owner := "" } "8_21").1 ≠ .error "not locked" := by
  refine ⟨rfl, ?_⟩
  have h1 : (unlockRing { owner := "" } "8_21").1 = .error "not your lock" := rfl
  rw [h1]
  simp

/-- C4 amended: Unlock by a caller whose token differs from the stored owner
fails with "not your lock"; Unlock by the owner succeeds and clears the owner
to the empty string, after which Unlock by any caller with a non-empty token
again fails with "not your lock".  The "not locked" error string belongs to
`LockEntityV2.Unlock`, which the skiplist ring does not use. -/
theorem c4_unlock_amended (l : LockEntity) (token token2 : String)
    (hne : l.owner ≠ token) (h2 : token2 ≠ "") :
    (unlockRing l token).1 = .error "not your lock" ∧
    unlockRing l l.owner = (.ok (), { owner := "" }) ∧
    (unlockRing { owner := "" } token2).1 = .error "not your lock" := by
  refine ⟨?_, ?_, ?_⟩
  · rw [unlockRing, if_pos hne]
  · rw [unlockRing, if_neg (by simp)]
  · have h3 : ({ owner := "" } : LockEntity).owner ≠ token2 := fun hh => h2 hh.symm
    rw [unlockRing, if_pos h3]

/-- C4 witness: the amended unlock behaviour at concrete tokens. -/
theorem c4_unlock_witness :
    (unlockRing { owner := "7_1" } "7_2").1 = .error "not your lock" ∧
    unlockRing { owner := "7_1" } "7_1" = (.ok (), { owner := "" }) ∧
    (unlockRing { owner := "" } "7_2").1 = .error "not your lock" := by
  have h := c4_unlock_amended { owner := "7_1" } "7_2" "7_2" (by decide) (by decide)
  exact h

/-- C5: on a sorted ring, Ceiling returns -1 when the ring is empty; when a
slot with score at least `score` exists it returns the smallest such
slot-score; when slots exist but all are below `score` it wraps to the first
(minimum) slot-score; and when `score` is itself a slot score both Ceiling
and Floor return `score`. -/
theorem c5_ceiling_floor (s : RingState) (score : Int) (hs : SortedSlots s.slots) :
    (s.slots = [] → hrCeiling s score = -1)
    ∧ (∀ p ∈ s.slots, score ≤ p.1 →
        score ≤ hrCeiling s score ∧
        (∃ l, getSlot s.slots (hrCeiling s score) = some l) ∧
        ∀ q ∈ s.slots, score ≤ q.1 → hrCeiling s score ≤ q.1)
    ∧ (s.slots ≠ [] → (∀ p ∈ s.slots, p.1 < score) →
        hrCeiling s score = hrFirst s.slots ∧
        (∃ l, getSlot s.slots (hrFirst s.slots) = some l) ∧
        (∀ q ∈ s.slots, hrFirst s.slots ≤ q.1))
    ∧ (∀ l, getSlot s.slots score = some l →
        hrCeiling s score = score ∧ hrFloor s score = score) := by
  refine ⟨?_, ?_, ?_, ?_⟩
  · intro h
    rw [hrCeiling, h]
    rfl
  · intro p hp hx
    rcases ceilingQ_least s.slots score hs p hp hx with ⟨t, ht, hxt, hl, hmin⟩
    rw [hrCeiling, ht]
    exact ⟨hxt, hl, hmin⟩
  · intro hne hall
    have hnone : ceilingQ s.slots score = none := (ceilingQ_none_iff s.slots score).mpr hall
    rw [hrCeiling, hnone]
    refine ⟨rfl, ?_, fun q hq => hrFirst_min s.slots hs q hq⟩
    cases hsl : s.slots with
    | nil => exact absurd hsl hne
    | cons p rest =>
      rw [hrFirst]
      exact ⟨p.2, by rw [getSlot, if_pos rfl]⟩
  · intro l hg
    constructor
    · rw [hrCeiling, ceilingQ_self s.slots score l hs hg]
    · rw [hrFloor, floorQ_self s.slots score l hs hg]

/-- C5 witness: the member case at a concrete sorted two-slot ring. -/
theorem c5_witness :
    SortedSlots ringDemo.slots ∧ (hrCeiling ringDemo 10 = 10 ∧ hrFloor ringDemo 10 = 10) := by
  have hs : SortedSlots ringDemo.slots := by
    unfold SortedSlots ringDemo
    simp
  exact ⟨hs, (c5_ceiling_floor ringDemo 10 hs).2.2.2 [strChars "N_1"] rfl⟩

/-- C6 counterexample: with a migrator configured, AddNode(A) (two replicas
at scores 5 and 9) followed by RemoveNode(A) on the empty ring completes
without error but does not return the state to empty: migrateIn's bookkeeping
left an empty data-key entry for A that Rem does not delete (Rem deletes
entries keyed by raw vkey strings such as A_0, not by node ID). -/
theorem c6_roundtrip_counterexample :
    (addNode cfgPair emptyRing (strChars "A") 1).1 = .ok () ∧
    (removeNode cfgPair (addNode cfgPair emptyRing (strChars "A") 1).2
        (strChars "A")).1 = .ok () ∧
    (removeNode cfgPair (addNode cfgPair emptyRing (strChars "A") 1).2
        (strChars "A")).2.nodeToDataKey = [(strChars "A", [])] ∧
    (removeNode cfgPair (addNode cfgPair emptyRing (strChars "A") 1).2
        (strChars "A")).2 ≠ emptyRing := by
  refine ⟨rfl, rfl, rfl, ?_⟩
  intro h
  have := congrArg RingState.nodeToDataKey h
  rw [show (removeNode cfgPair (addNode cfgPair emptyRing (strChars "A") 1).2
      (strChars "A")).2.nodeToDataKey = [(strChars "A", [])] from rfl] at this
  simp [emptyRing] at this

/-- C7: the skiplist backend's Add is idempotent — a second identical
Add(score, vkey) leaves the state of the first call unchanged — and
AddNodeToDataKeys with a data key already present in the node's set leaves
the state unchanged. -/
theorem c7_idempotence (s : RingState) (sc : Int) (v : Str) (n k : Str) :
    hrAdd (hrAdd s sc v) sc v = hrAdd s sc v ∧
    (k ∈ hrDataKeys s n → hrAddNodeToDataKeys s n [k] = s) := by
  constructor
  · exact hrAdd_of_slotHas (hrAdd s sc v) sc v (slotHas_hrAdd_self s sc v)
  · intro hk
    unfold hrDataKeys at hk
    cases hl : lookupA s.nodeToDataKey n with
    | none => rw [hl] at hk; simp at hk
    | some old =>
      rw [hl] at hk
      simp only [Option.getD_some] at hk
      unfold hrAddNodeToDataKeys hrDataKeys
      rw [hl]
      simp only [Option.getD_some, insertKeys, if_pos hk]
      rw [setA_of_lookup_some s.nodeToDataKey n old hl]

/-- C7 witness: idempotence at a concrete state with an already-present key. -/
theorem c7_idempotence_witness :
    strChars "q" ∈ hrDataKeys ringDemo (strChars "N") ∧
    hrAddNodeToDataKeys ringDemo (strChars "N") [strChars "q"] = ringDemo ∧
    hrAdd (hrAdd ringDemo 3 (strChars "N_0")) 3 (strChars "N_0")
      = hrAdd ringDemo 3 (strChars "N_0") := by
  have h := c7_idempotence ringDemo 3 (strChars "N_0") (strChars "N") (strChars "q")
  exact ⟨by decide, h.2 (by decide), h.1⟩

/-- C8: a successful GetNode(dataKey) returns the first virtual-node key of
the slot at the ceiling of the data key's score, registers the data key in
the data-key map under the stripped node ID of that vkey, and changes neither
the slots nor the replica map. -/
theorem c8_getnode_raw_vkey (c : CH) (s : RingState) (dataKey v : Str) (s2 : RingState)
    (h : getNode c s dataKey = (.ok v, s2)) :
    (∃ l, getSlot s.slots (hrCeiling s (c.encrypt dataKey)) = some l ∧ l.head? = some v)
    ∧ (∃ ks, lookupA s2.nodeToDataKey (getNodeID v) = some ks ∧ dataKey ∈ ks)
    ∧ s2.slots = s.slots ∧ s2.nodeToReplicas = s.nodeToReplicas := by
  unfold getNode at h
  dsimp only at h
  by_cases h1 : hrCeiling s (c.encrypt dataKey) = -1
  · rw [if_pos h1] at h
    exact absurd (congrArg Prod.fst h) (by simp)
  · rw [if_neg h1] at h
    unfold hrNode at h
    cases hg : getSlot s.slots (hrCeiling s (c.encrypt dataKey)) with
    | none =>
      rw [hg] at h
      exact absurd (congrArg Prod.fst h) (by simp)
    | some l =>
      rw [hg] at h
      cases l with
      | nil =>
        simp only at h
        exact absurd (congrArg Prod.fst h) (by simp)
      | cons first rest =>
        simp only at h
        have hpair := Prod.mk.injEq .. ▸ h
        rw [Prod.mk.injEq] at h
        have hv : first = v := Except.ok.inj h.1
        have hst : hrAddNodeToDataKeys s (getNodeID first) [dataKey] = s2 := h.2
        refine ⟨⟨v :: rest, ?_, rfl⟩, ?_, ?_, ?_⟩
        · rw [hv]
        · refine ⟨insertKeys (hrDataKeys s (getNodeID first)) [dataKey], ?_, ?_⟩
          · rw [← hst, ← hv]
            unfold hrAddNodeToDataKeys
            exact lookupA_setA_self _ _ _
          · exact mem_insertKeys_single _ _
        · rw [← hst]
          exact hrAddK_slots s (getNodeID first) [dataKey]
        · rw [← hst]
          exact hrAddK_rep s (getNodeID first) [dataKey]

/-- C8 witness: GetNode at a concrete ring. -/
theorem c8_getnode_witness :
    getNode cfgSole ringSole (strChars "k")
      = (.ok (strChars "A_0"), (getNode cfgSole ringSole (strChars "k")).2) ∧
    (∃ l, getSlot ringSole.slots (hrCeiling ringSole (cfgSole.encrypt (strChars "k")))
        = some l ∧ l.head? = some (strChars "A_0"))
    ∧ (∃ ks, lookupA ((getNode cfgSole ringSole (strChars "k")).2).nodeToDataKey
        (getNodeID (strChars "A_0")) = some ks ∧ strChars "k" ∈ ks)
    ∧ ((getNode cfgSole ringSole (strChars "k")).2).slots = ringSole.slots
    ∧ ((getNode cfgSole ringSole (strChars "k")).2).nodeToReplicas
        = ringSole.nodeToReplicas := by
  have heq : getNode cfgSole ringSole (strChars "k")
      = (.ok (strChars "A_0"), (getNode cfgSole ringSole (strChars "k")).2) := rfl
  exact ⟨heq, c8_getnode_raw_vkey cfgSole ringSole (strChars "k") (strChars "A_0")
    (getNode cfgSole ringSole (strChars "k")).2 heq⟩

/-- C10: a successful Rem(score, vkey) deletes the data-key entry stored
under the vkey string, leaves entries under every other key and the replica
map unchanged, removes the vkey from the slot at `score` (removing the slot
when the vkey was its only element), and leaves every other slot unchanged. -/
theorem c10_rem_frame (s : RingState) (score : Int) (vkey : Str) (s2 : RingState)
    (hs : SortedSlots s.slots) (h : hrRem s score vkey = .ok s2) :
    lookupA s2.nodeToDataKey vkey = none
    ∧ (∀ k, k ≠ vkey → lookupA s2.nodeToDataKey k = lookupA s.nodeToDataKey k)
    ∧ s2.nodeToReplicas = s.nodeToReplicas
    ∧ (∀ sc2, sc2 ≠ score → getSlot s2.slots sc2 = getSlot s.slots sc2)
    ∧ (∀ l, getSlot s.slots score = some l →
        (l.length ≤ 1 → getSlot s2.slots score = none) ∧
        (l.length > 1 → getSlot s2.slots score = some (removeFirst l vkey))) := by
  rcases hrRem_ok_elim s score vkey s2 h with ⟨l, hg, hm, hrep, hdata, hbr⟩
  refine ⟨?_, ?_, hrep, ?_, ?_⟩
  · rw [hdata]
    exact lookupA_eraseA_self _ _
  · intro k hk
    rw [hdata]
    exact lookupA_eraseA_ne _ _ _ hk
  · intro sc2 hsc2
    rcases hbr with ⟨_, hsl⟩ | ⟨_, hsl⟩
    · rw [hsl]
      exact getSlot_setSlot_ne _ _ _ _ hsc2
    · rw [hsl]
      exact getSlot_dropSlot_ne _ _ _ hsc2
  · intro l2 hg2
    have hl : l2 = l := by rw [hg] at hg2; exact (Option.some_inj.mp hg2).symm
    subst hl
    rcases hbr with ⟨hlen, hsl⟩ | ⟨hlen, hsl⟩
    · constructor
      · intro hle; omega
      · intro _
        rw [hsl]
        exact getSlot_setSlot_self s.slots score (removeFirst l2 vkey) l2 hg
    · constructor
      · intro _
        rw [hsl]
        exact getSlot_dropSlot_self s.slots score hs
      · intro hgt; omega

/-- C10 witness: removing N_0 (sole element of the slot at 3) from the
demonstration ring deletes no data entry keyed N_0 (there is none), keeps the
entry keyed N, and drops the now-empty slot. -/
theorem c10_rem_witness :
    SortedSlots ringDemo.slots ∧
    lookupA remDemo.nodeToDataKey (strChars "N_0") = none ∧
    lookupA remDemo.nodeToDataKey (strChars "N")
      = lookupA ringDemo.nodeToDataKey (strChars "N") ∧
    getSlot remDemo.slots 3 = none := by
  have hs : SortedSlots ringDemo.slots := by
    unfold SortedSlots ringDemo
    simp
  have h := c10_rem_frame ringDemo 3 (strChars "N_0") remDemo hs rfl
  exact ⟨hs, h.1, h.2.1 (strChars "N") (by decide),
    (h.2.2.2.2 [strChars "N_0"] rfl).1 (by decide)⟩

/-! ## Lemmas: commuting slot operations -/

theorem setSlot_setSlot (x : List (Int × List Str)) (sc : Int) (v1 v2 : List Str) :
    setSlot (setSlot x sc v1) sc v2 = setSlot x sc v2 := by
  induction x with
  | nil => simp [setSlot]
  | cons p rest ih =>
    by_cases hp : p.1 = sc
    · simp [setSlot, hp]
    · simp [setSlot, hp, ih]

theorem setSlot_self (x : List (Int × List Str)) (sc : Int) (l : List Str)
    (h : getSlot x sc = some l) : setSlot x sc l = x := by
  induction x with
  | nil => simp [getSlot] at h
  | cons p rest ih =>
    by_cases hp : p.1 = sc
    · rw [getSlot, if_pos hp] at h
      have h2 : p.2 = l := Option.some_inj.mp h
      simp only [setSlot, if_pos hp, ← h2, ← hp]
      simp
    · rw [getSlot, if_neg hp] at h
      simp only [setSlot, if_neg hp, ih h]

theorem setSlot_comm (x : List (Int × List Str)) (sc sc2 : Int) (v v2 l0 : List Str)
    (h : sc ≠ sc2) (hx : getSlot x sc = some l0) :
    setSlot (setSlot x sc2 v2) sc v = setSlot (setSlot x sc v) sc2 v2 := by
  have hne : ¬ (sc2 = sc) := fun hh => h hh.symm
  induction x with
  | nil => simp [getSlot] at hx
  | cons p rest ih =>
    by_cases hp : p.1 = sc
    · have hp2 : ¬ (p.1 = sc2) := by rw [hp]; exact h
      simp [setSlot, hp, hp2, hne, h]
    · rw [getSlot, if_neg hp] at hx
      by_cases hp2 : p.1 = sc2
      · simp [setSlot, hp, hp2, hne, h]
      · simp [setSlot, hp, hp2, ih hx]

theorem dropSlot_setSlot_comm (x : List (Int × List Str)) (sc sc2 : Int)
    (v2 : List Str) (h : sc ≠ sc2) :
    dropSlot (setSlot x sc2 v2) sc = setSlot (dropSlot x sc) sc2 v2 := by
  have hne : ¬ (sc2 = sc) := fun hh => h hh.symm
  induction x with
  | nil => simp [setSlot, dropSlot]
  | cons p rest ih =>
    by_cases hp : p.1 = sc
    · have hp2 : ¬ (p.1 = sc2) := by rw [hp]; exact h
      simp [setSlot, dropSlot, hp, hp2, hne, h]
    · by_cases hp2 : p.1 = sc2
      · simp [setSlot, dropSlot, hp, hp2, hne, h]
      · simp [setSlot, dropSlot, hp, hp2, ih]

theorem setSlot_insertSlot_comm (x : List (Int × List Str)) (sc sc2 : Int)
    (v v2 l0 : List Str) (h : sc ≠ sc2) (hx : getSlot x sc = some l0) :
    setSlot (insertSlot x sc2 v2) sc v = insertSlot (setSlot x sc v) sc2 v2 := by
  have hne : ¬ (sc2 = sc) := fun hh => h hh.symm
  induction x with
  | nil => simp [getSlot] at hx
  | cons p rest ih =>
    by_cases hle : sc2 ≤ p.1
    · by_cases hp : p.1 = sc
      · have hle2 : sc2 ≤ sc := by rw [← hp]; exact hle
        simp [insertSlot, setSlot, hle, hp, hne, h, hle2]
      · simp [insertSlot, setSlot, hle, hp, hne, h]
    · by_cases hp : p.1 = sc
      · have hle2 : ¬ (sc2 ≤ sc) := by rw [← hp]; exact hle
        simp [insertSlot, setSlot, hle, hp, hle2]
      · rw [getSlot, if_neg hp] at hx
        simp [insertSlot, setSlot, hle, hp, ih hx]

theorem dropSlot_insertSlot_comm (x : List (Int × List Str)) (sc sc2 : Int)
    (v2 : List Str) (h : sc ≠ sc2) (hs : SortedSlots x) :
    dropSlot (insertSlot x sc2 v2) sc = insertSlot (dropSlot x sc) sc2 v2 := by
  have hne : ¬ (sc2 = sc) := fun hh => h hh.symm
  induction x with
  | nil => simp [dropSlot, insertSlot, hne]
  | cons p rest ih =>
    rw [SortedSlots, List.map_cons, List.pairwise_cons] at hs
    by_cases hle : sc2 ≤ p.1
    · by_cases hp : p.1 = sc
      · have hle2 : sc2 ≤ sc := by rw [← hp]; exact hle
        simp only [insertSlot, if_pos hle, dropSlot, if_neg hne, if_pos hp]
        cases hrest : rest with
        | nil => simp [insertSlot]
        | cons q rest2 =>
          have hq : sc2 ≤ q.1 := by
            have := hs.1 q.1 (by rw [hrest]; exact List.mem_map_of_mem Prod.fst (List.mem_cons_self q rest2))
            omega
          rw [insertSlot, if_pos hq]
      · simp [insertSlot, dropSlot, hle, hp, hne, h]
    · by_cases hp : p.1 = sc
      · have hle2 : ¬ (sc2 ≤ sc) := by rw [← hp]; exact hle
        simp [insertSlot, dropSlot, hle, hp, hle2]
      · simp [insertSlot, dropSlot, hle, hp, ih hs.2]

theorem dropSlot_insertSlot (x : List (Int × List Str)) (sc : Int) (v : List Str) :
    dropSlot (insertSlot x sc v) sc = x := by
  induction x with
  | nil => simp [insertSlot, dropSlot]
  | cons p rest ih =>
    by_cases hle : sc ≤ p.1
    · simp [insertSlot, dropSlot, hle]
    · have hp : ¬ (p.1 = sc) := fun hh => hle (le_of_eq hh.symm)
      simp [insertSlot, dropSlot, hle, hp, ih]

theorem setSlot_eq_insert_drop (x : List (Int × List Str)) (sc : Int)
    (v l : List Str) (hs : SortedSlots x) (h : getSlot x sc = some l) :
    setSlot x sc v = insertSlot (dropSlot x sc) sc v := by
  induction x with
  | nil => simp [getSlot] at h
  | cons p rest ih =>
    rw [SortedSlots, List.map_cons, List.pairwise_cons] at hs
    by_cases hp : p.1 = sc
    · rw [setSlot, if_pos hp, dropSlot, if_pos hp]
      cases hrest : rest with
      | nil => simp [insertSlot]
      | cons q rest2 =>
        have hq1 : p.1 < q.1 := by
          apply hs.1 q.1
          rw [hrest]
          exact List.mem_map_of_mem Prod.fst (List.mem_cons_self q rest2)
        have hq : sc ≤ q.1 := by omega
        rw [insertSlot, if_pos hq]
    · rw [getSlot, if_neg hp] at h
      have hmem := getSlot_mem rest sc l h
      have hplt : p.1 < sc := by
        apply hs.1 sc
        simpa using List.mem_map_of_mem Prod.fst hmem
      rw [setSlot, if_neg hp, dropSlot, if_neg hp, insertSlot, if_neg (by omega)]
      rw [ih hs.2 h]

theorem not_mem_removeFirst_of_not_mem (l : List Str) (v w : Str) (h : w ∉ l) :
    w ∉ removeFirst l v :=
  fun hm => h (mem_of_mem_removeFirst l v w hm)

theorem hrAdd_sorted (s : RingState) (sc : Int) (k : Str)
    (hs : SortedSlots s.slots) : SortedSlots (hrAdd s sc k).slots := by
  unfold hrAdd
  cases hg : getSlot s.slots sc with
  | none => exact sorted_insertSlot s.slots sc [k] hs hg
  | some l =>
    by_cases hm : k ∈ l
    · simpa [hm]
    · simp only [if_neg hm]
      exact sorted_setSlot s.slots sc (l ++ [k]) hs

/-- Removal of one vkey commutes with the later addition of a different vkey. -/
theorem rem_hrAdd_comm (t t2 : RingState) (sc sc2 : Int) (k k2 : Str)
    (hk : k2 ≠ k) (hs : SortedSlots t.slots) (hrem : hrRem t sc k = .ok t2) :
    hrRem (hrAdd t sc2 k2) sc k = .ok (hrAdd t2 sc2 k2) := by
  rcases hrRem_ok_elim t sc k t2 hrem with ⟨l, hg, hm, hrep, hdata, hbr⟩
  obtain ⟨t2slots, t2rep, t2data⟩ := t2
  simp only at hrep hdata hbr
  subst hrep hdata
  unfold hrAdd
  cases hg2 : getSlot t.slots sc2 with
  | some l2 =>
    by_cases hk2 : k2 ∈ l2
    · -- the addition is a no-op on both sides
      simp only [if_pos hk2]
      have hkeep : slotHas ⟨t2slots, t.nodeToReplicas, eraseA t.nodeToDataKey k⟩ sc2 k2 :=
        hrRem_slotHas_keep t sc k _ hrem sc2 k2 hk ⟨l2, hg2, hk2⟩
      rcases hkeep with ⟨l3, hg3, hk3⟩
      simp only at hg3
      rw [hg3]
      dsimp only
      rw [if_pos hk3]
      exact hrem
    · simp only [if_neg hk2]
      by_cases hsc : sc2 = sc
      · -- same slot: the addition appends k2, the removal takes k out
        subst hsc
        have hl : l2 = l := by rw [hg] at hg2; exact (Option.some_inj.mp hg2).symm
        subst hl
        have hgset : getSlot (setSlot t.slots sc2 (l2 ++ [k2])) sc2 = some (l2 ++ [k2]) :=
          getSlot_setSlot_self t.slots sc2 (l2 ++ [k2]) l2 hg
        have hmem : k ∈ l2 ++ [k2] := List.mem_append.mpr (Or.inl hm)
        have hlen : (l2 ++ [k2]).length > 1 := by
          simp only [List.length_append, List.length_singleton]
          have : 1 ≤ l2.length := List.length_pos.mpr (List.ne_nil_of_mem hm)
          omega
        unfold hrRem
        dsimp only
        rw [hgset]
        dsimp only
        rw [if_pos hmem, if_pos hlen]
        rw [removeFirst_append_of_mem l2 [k2] k hm]
        rcases hbr with ⟨hlen2, hsl⟩ | ⟨hlen2, hsl⟩
        · subst hsl
          have hg2t : getSlot (setSlot t.slots sc2 (removeFirst l2 k)) sc2
              = some (removeFirst l2 k) :=
            getSlot_setSlot_self t.slots sc2 (removeFirst l2 k) l2 hg
          rw [hg2t]
          dsimp only
          rw [if_neg (not_mem_removeFirst_of_not_mem l2 k k2 hk2)]
          rw [setSlot_setSlot, setSlot_setSlot]
        · subst hsl
          have hg2t : getSlot (dropSlot t.slots sc2) sc2 = none :=
            getSlot_dropSlot_self t.slots sc2 hs
          rw [hg2t]
          dsimp only
          have hl2 : l2 = [k] := by
            cases l2 with
            | nil => simp at hm
            | cons x rest =>
              cases rest with
              | nil =>
                have hx : x = k := (List.mem_singleton.mp hm).symm
                rw [hx]
              | cons y rest2 =>
                exfalso
                simp only [List.length_cons] at hlen2
                omega
          subst hl2
          simp only [removeFirst, if_pos rfl, ite_true, List.nil_append]
          rw [setSlot_setSlot]
          rw [setSlot_eq_insert_drop t.slots sc2 [k2] [k] hs hg]
      · -- different slots, both present: the two rewrites commute
        have hscne : sc ≠ sc2 := fun hh => hsc hh.symm
        have hgne : getSlot (setSlot t.slots sc2 (l2 ++ [k2])) sc = some l := by
          rw [getSlot_setSlot_ne t.slots sc2 sc (l2 ++ [k2]) hscne]
          exact hg
        unfold hrRem
        dsimp only
        rw [hgne]
        dsimp only
        rw [if_pos hm]
        rcases hbr with ⟨hlen2, hsl⟩ | ⟨hlen2, hsl⟩
        · subst hsl
          have hg2t : getSlot (setSlot t.slots sc (removeFirst l k)) sc2 = some l2 := by
            rw [getSlot_setSlot_ne t.slots sc sc2 (removeFirst l k) hsc]
            exact hg2
          rw [if_pos hlen2, hg2t]
          dsimp only
          rw [if_neg hk2]
          rw [setSlot_comm t.slots sc sc2 (removeFirst l k) (l2 ++ [k2]) l hscne hg]
        · subst hsl
          have hg2t : getSlot (dropSlot t.slots sc) sc2 = some l2 := by
            rw [getSlot_dropSlot_ne t.slots sc sc2 hsc]
            exact hg2
          rw [if_neg (by omega : ¬ l.length > 1), hg2t]
          dsimp only
          rw [if_neg hk2]
          rw [dropSlot_setSlot_comm t.slots sc sc2 (l2 ++ [k2]) hscne]
  | none =>
    -- a new slot is created, at a score necessarily distinct from sc
    have hsc : sc2 ≠ sc := by
      intro hh
      rw [hh, hg] at hg2
      exact absurd hg2 (by simp)
    have hscne : sc ≠ sc2 := fun hh => hsc hh.symm
    have hgne : getSlot (insertSlot t.slots sc2 [k2]) sc = some l := by
      rw [getSlot_insertSlot_ne t.slots sc2 sc [k2] hscne]
      exact hg
    unfold hrRem
    dsimp only
    rw [hgne]
    dsimp only
    rw [if_pos hm]
    rcases hbr with ⟨hlen2, hsl⟩ | ⟨hlen2, hsl⟩
    · subst hsl
      have hg2t : getSlot (setSlot t.slots sc (removeFirst l k)) sc2 = none := by
        rw [getSlot_setSlot_ne t.slots sc sc2 (removeFirst l k) hsc]
        exact hg2
      rw [if_pos hlen2, hg2t]
      dsimp only
      rw [setSlot_insertSlot_comm t.slots sc sc2 (removeFirst l k) [k2] l hscne hg]
    · subst hsl
      have hg2t : getSlot (dropSlot t.slots sc) sc2 = none := by
        rw [getSlot_dropSlot_ne t.slots sc sc2 hsc]
        exact hg2
      rw [if_neg (by omega : ¬ l.length > 1), hg2t]
      dsimp only
      rw [dropSlot_insertSlot_comm t.slots sc sc2 [k2] hscne hs]

/-! ## Round-trip machinery and claim C6 -/

/-- Removing a key right after freshly adding it restores the state. -/
theorem hrRem_hrAdd_fresh (s : RingState) (sc : Int) (k : Str)
    (hne : ∀ p ∈ s.slots, p.2 ≠ [])
    (hfresh : ∀ p ∈ s.slots, k ∉ p.2)
    (hdata : lookupA s.nodeToDataKey k = none) :
    hrRem (hrAdd s sc k) sc k = .ok s := by
  unfold hrAdd
  cases hg : getSlot s.slots sc with
  | some l =>
    have hkl : k ∉ l := hfresh (sc, l) (getSlot_mem s.slots sc l hg)
    simp only [if_neg hkl]
    unfold hrRem
    dsimp only
    rw [getSlot_setSlot_self s.slots sc (l ++ [k]) l hg]
    dsimp only
    have hmem : k ∈ l ++ [k] := by simp
    rw [if_pos hmem]
    have hlnil : l ≠ [] := hne (sc, l) (getSlot_mem s.slots sc l hg)
    have hlen : (l ++ [k]).length > 1 := by
      simp only [List.length_append, List.length_singleton]
      have : 1 ≤ l.length := List.length_pos.mpr hlnil
      omega
    rw [if_pos hlen]
    rw [removeFirst_append_self l k hkl]
    rw [eraseA_of_lookup_none s.nodeToDataKey k hdata]
    rw [setSlot_setSlot, setSlot_self s.slots sc l hg]
  | none =>
    unfold hrRem
    dsimp only
    rw [getSlot_insertSlot_self s.slots sc [k]]
    dsimp only
    rw [if_pos (List.mem_singleton_self k)]
    rw [if_neg (by simp : ¬ ([k] : List Str).length > 1)]
    rw [eraseA_of_lookup_none s.nodeToDataKey k hdata]
    rw [dropSlot_insertSlot]

theorem addPure_rep (c : CH) (n : Str) (is : List Nat) (s : RingState) :
    (addPure c n is s).nodeToReplicas = s.nodeToReplicas := by
  induction is generalizing s with
  | nil => rfl
  | cons i rest ih =>
    unfold addPure
    rw [ih, hrAdd_rep]

theorem addPure_data (c : CH) (n : Str) (is : List Nat) (s : RingState) :
    (addPure c n is s).nodeToDataKey = s.nodeToDataKey := by
  induction is generalizing s with
  | nil => rfl
  | cons i rest ih =>
    unfold addPure
    rw [ih, hrAdd_data]

theorem hrAdd_set_rep (s : RingState) (m : List (Str × Nat)) (sc : Int) (k : Str) :
    hrAdd { s with nodeToReplicas := m } sc k
      = { hrAdd s sc k with nodeToReplicas := m } := by
  unfold hrAdd
  dsimp only
  cases getSlot s.slots sc with
  | none => rfl
  | some l =>
    by_cases hm : k ∈ l
    · simp [hm]
    · simp [hm]

theorem addPure_set_rep (c : CH) (n : Str) (is : List Nat) (s : RingState)
    (m : List (Str × Nat)) :
    addPure c n is { s with nodeToReplicas := m }
      = { addPure c n is s with nodeToReplicas := m } := by
  induction is generalizing s with
  | nil => rfl
  | cons i rest ih =>
    unfold addPure
    rw [hrAdd_set_rep, ih]

theorem addNodeLoop_noMigrator (c : CH) (n : Str) (is : List Nat) (s : RingState)
    (hmig : c.hasMigrator = false) :
    addNodeLoop c n is s = (.ok (), addPure c n is s) := by
  induction is generalizing s with
  | nil => rfl
  | cons i rest ih =>
    unfold addNodeLoop addNodeStep
    dsimp only
    rw [migrateIn_noMigrator c _ _ _ hmig]
    exact ih _

/-- Removing a key commutes past a block of later additions of other keys. -/
theorem hrRem_addPure (c : CH) (n : Str) (is : List Nat) (t t2 : RingState)
    (sc : Int) (k : Str) (hs : SortedSlots t.slots)
    (hk : ∀ i ∈ is, rawNodeKey n i ≠ k)
    (hrem : hrRem t sc k = .ok t2) :
    hrRem (addPure c n is t) sc k = .ok (addPure c n is t2) := by
  induction is generalizing t t2 with
  | nil => exact hrem
  | cons i rest ih =>
    unfold addPure
    exact ih _ _ (hrAdd_sorted t _ _ hs)
      (fun j hj => hk j (List.mem_cons_of_mem _ hj))
      (rem_hrAdd_comm t t2 sc (c.encrypt (rawNodeKey n i)) k (rawNodeKey n i)
        (hk i (List.mem_cons_self _ _)) hs hrem)

/-- With no migrator, the RemoveNode loop undoes exactly the additions of the
AddNode loop. -/
theorem removeLoop_addPure (c : CH) (n : Str) (is : List Nat) (s : RingState)
    (hmig : c.hasMigrator = false)
    (hs : SortedSlots s.slots)
    (hne : ∀ p ∈ s.slots, p.2 ≠ [])
    (hfresh : ∀ i ∈ is, ∀ p ∈ s.slots, rawNodeKey n i ∉ p.2)
    (hdata : ∀ i ∈ is, lookupA s.nodeToDataKey (rawNodeKey n i) = none)
    (hnd : is.Nodup) :
    removeNodeLoop c n is (addPure c n is s) = (.ok (), s) := by
  induction is generalizing s with
  | nil => rfl
  | cons i rest ih =>
    rcases List.nodup_cons.mp hnd with ⟨hni, hndrest⟩
    unfold addPure removeNodeLoop removeNodeStep
    dsimp only
    rw [migrateOut_noMigrator c _ _ _ hmig]
    have hstep : hrRem (hrAdd s (c.encrypt (rawNodeKey n i)) (rawNodeKey n i))
        (c.encrypt (rawNodeKey n i)) (rawNodeKey n i) = .ok s :=
      hrRem_hrAdd_fresh s _ _ hne
        (fun p hp => hfresh i (List.mem_cons_self _ _) p hp)
        (hdata i (List.mem_cons_self _ _))
    have hdistinct : ∀ j ∈ rest, rawNodeKey n j ≠ rawNodeKey n i := by
      intro j hj heq
      have := (rawNodeKey_inj n n j i heq).2
      exact hni (this ▸ hj)
    have hpull := hrRem_addPure c n rest
      (hrAdd s (c.encrypt (rawNodeKey n i)) (rawNodeKey n i)) s
      (c.encrypt (rawNodeKey n i)) (rawNodeKey n i)
      (hrAdd_sorted s _ _ hs) hdistinct hstep
    dsimp only
    rw [hpull]
    dsimp only
    exact ih s hs hne
      (fun j hj p hp => hfresh j (List.mem_cons_of_mem _ hj) p hp)
      (fun j hj => hdata j (List.mem_cons_of_mem _ hj))
      hndrest

/-- C6 amended: with no migrator configured, AddNode of a fresh node followed
by RemoveNode of that node restores the ring state exactly — in particular
the round trip on an otherwise empty ring returns the state to empty — given
that no slot already stores one of the node's virtual-node key strings and no
data-key entry is stored under one of those strings. -/
theorem c6_roundtrip_amended (c : CH) (s : RingState) (nodeID : Str) (weight : Int)
    (hmig : c.hasMigrator = false)
    (hfreshN : lookupA s.nodeToReplicas nodeID = none)
    (hs : SortedSlots s.slots)
    (hne : ∀ p ∈ s.slots, p.2 ≠ [])
    (hfresh : ∀ i : Nat, ∀ p ∈ s.slots, rawNodeKey nodeID i ∉ p.2)
    (hdata : ∀ i : Nat, lookupA s.nodeToDataKey (rawNodeKey nodeID i) = none) :
    (addNode c s nodeID weight).1 = .ok () ∧
    removeNode c (addNode c s nodeID weight).2 nodeID = (.ok (), s) := by
  have hany : (s.nodeToReplicas.any fun p => decide (p.1 = nodeID)) = false :=
    (any_key_eq_false s.nodeToReplicas nodeID).mpr hfreshN
  have haddEq : addNode c s nodeID weight
      = (.ok (), addPure c nodeID (List.range (getValidWeight weight * c.replicas))
          (hrAddNodeToReplica s nodeID (getValidWeight weight * c.replicas))) := by
    unfold addNode
    rw [hany]
    dsimp only
    exact addNodeLoop_noMigrator c nodeID _ _ hmig
  constructor
  · rw [haddEq]
  · rw [haddEq]
    dsimp only
    set R := getValidWeight weight * c.replicas with hR
    have hsets : hrAddNodeToReplica s nodeID R
        = { s with nodeToReplicas := setA s.nodeToReplicas nodeID R } := rfl
    have haddP : addPure c nodeID (List.range R) (hrAddNodeToReplica s nodeID R)
        = { addPure c nodeID (List.range R) s
            with nodeToReplicas := setA s.nodeToReplicas nodeID R } := by
      rw [hsets, addPure_set_rep]
    unfold removeNode
    rw [haddP]
    dsimp only
    rw [lookupA_setA_self s.nodeToReplicas nodeID R]
    dsimp only
    have herase : eraseA (setA s.nodeToReplicas nodeID R) nodeID = s.nodeToReplicas := by
      rw [setA_of_lookup_none s.nodeToReplicas nodeID R hfreshN]
      exact eraseA_append_single s.nodeToReplicas nodeID R hfreshN
    unfold hrDeleteNodeToReplica
    dsimp only
    rw [herase]
    have hback : ({ addPure c nodeID (List.range R) s with
          nodeToReplicas := s.nodeToReplicas })
        = addPure c nodeID (List.range R) s := by
      have := addPure_rep c nodeID (List.range R) s
      rw [← this]
    rw [hback]
    exact removeLoop_addPure c nodeID (List.range R) s hmig hs hne
      (fun i _ p hp => hfresh i p hp)
      (fun i _ => hdata i)
      (List.nodup_range R)

/-- C6 witness: the round trip at the empty ring with two replicas and no
migrator returns the state to empty. -/
theorem c6_roundtrip_witness :
    (addNode cfgPairNil emptyRing (strChars "A") 1).1 = .ok () ∧
    removeNode cfgPairNil (addNode cfgPairNil emptyRing (strChars "A") 1).2
      (strChars "A") = (.ok (), emptyRing) :=
  c6_roundtrip_amended cfgPairNil emptyRing (strChars "A") 1 rfl rfl
    (by unfold SortedSlots emptyRing; simp)
    (by intro p hp; simp [emptyRing] at hp)
    (by intro i p hp; simp [emptyRing] at hp)
    (by intro i; rfl)

/-! ## Claim C9 -/

theorem hrRem_ok_of_slotHas (s : RingState) (sc : Int) (k : Str)
    (h : slotHas s sc k) : ∃ s2, hrRem s sc k = .ok s2 := by
  rcases h with ⟨l, hg, hm⟩
  unfold hrRem
  rw [hg]
  dsimp only
  rw [if_pos hm]
  by_cases hlen : l.length > 1
  · rw [if_pos hlen]
    exact ⟨_, rfl⟩
  · rw [if_neg hlen]
    exact ⟨_, rfl⟩

/-- With no migrator, the RemoveNode loop succeeds whenever every virtual
node to remove is present, and data-key entries under other keys survive. -/
theorem removeLoop_ok (c : CH) (n : Str) (is : List Nat) (t : RingState)
    (hmig : c.hasMigrator = false)
    (hs : SortedSlots t.slots)
    (hpres : ∀ i ∈ is, slotHas t (c.encrypt (rawNodeKey n i)) (rawNodeKey n i))
    (hdistinct : is.Nodup) :
    ∃ t2, removeNodeLoop c n is t = (.ok (), t2) ∧
      ∀ k2, (∀ i ∈ is, k2 ≠ rawNodeKey n i) →
        lookupA t2.nodeToDataKey k2 = lookupA t.nodeToDataKey k2 := by
  induction is generalizing t with
  | nil => exact ⟨t, rfl, fun k2 _ => rfl⟩
  | cons i rest ih =>
    obtain ⟨hni, hndrest⟩ := List.nodup_cons.mp hdistinct
    obtain ⟨t1, hrem⟩ := hrRem_ok_of_slotHas t _ _ (hpres i (List.mem_cons_self _ _))
    have hsorted1 := hrRem_sorted t _ _ t1 hs hrem
    have hpres1 : ∀ j ∈ rest,
        slotHas t1 (c.encrypt (rawNodeKey n j)) (rawNodeKey n j) := by
      intro j hj
      have hne : rawNodeKey n j ≠ rawNodeKey n i := by
        intro heq
        exact hni ((rawNodeKey_inj n n j i heq).2 ▸ hj)
      exact hrRem_slotHas_keep t _ _ t1 hrem _ _ hne
        (hpres j (List.mem_cons_of_mem _ hj))
    obtain ⟨t2, hloop, hdata2⟩ := ih t1 hsorted1 hpres1 hndrest
    refine ⟨t2, ?_, ?_⟩
    · unfold removeNodeLoop removeNodeStep
      dsimp only
      rw [migrateOut_noMigrator c _ _ _ hmig]
      dsimp only
      rw [hrem]
      dsimp only
      exact hloop
    · intro k2 hk2
      rw [hdata2 k2 (fun j hj => hk2 j (List.mem_cons_of_mem _ hj))]
      rcases hrRem_ok_elim t _ _ t1 hrem with ⟨l, _, _, _, hdata1, _⟩
      rw [hdata1]
      exact lookupA_eraseA_ne _ _ _ (hk2 i (List.mem_cons_self _ _))

/-- C9: with no migrator configured, migrateIn and migrateOut return
immediately with empty results, no error and no state change; RemoveNode of
the sole node of the ring succeeds even though the node has registered data
keys, and those keys stay registered under the removed node's ID. -/
theorem c9_nil_migrator (c : CH) (s : RingState) (nodeID : Str) (reps : Nat)
    (ks : List Str)
    (hmig : c.hasMigrator = false)
    (hmap : s.nodeToReplicas = [(nodeID, reps)])
    (hs : SortedSlots s.slots)
    (hpres : ∀ i < reps,
      slotHas s (c.encrypt (rawNodeKey nodeID i)) (rawNodeKey nodeID i))
    (hdk : lookupA s.nodeToDataKey nodeID = some ks)
    (hks : ks ≠ []) :
    (∀ s2 vs n2, migrateIn c s2 vs n2 = (.ok ([], [], []), s2)
      ∧ migrateOut c s2 vs n2 = (.ok ([], [], []), s2))
    ∧ (removeNode c s nodeID).1 = .ok ()
    ∧ lookupA ((removeNode c s nodeID).2).nodeToDataKey nodeID = some ks := by
  have hlook : lookupA s.nodeToReplicas nodeID = some reps := by
    rw [hmap]
    simp [lookupA]
  have hdel : hrDeleteNodeToReplica s nodeID
      = { s with nodeToReplicas := eraseA s.nodeToReplicas nodeID } := rfl
  have hpresDel : ∀ i ∈ List.range reps,
      slotHas (hrDeleteNodeToReplica s nodeID)
        (c.encrypt (rawNodeKey nodeID i)) (rawNodeKey nodeID i) := by
    intro i hi
    exact hpres i (List.mem_range.mp hi)
  obtain ⟨t2, hloop, hdata2⟩ := removeLoop_ok c nodeID (List.range reps)
    (hrDeleteNodeToReplica s nodeID) hmig hs hpresDel (List.nodup_range reps)
  have hrmEq : removeNode c s nodeID = (.ok (), t2) := by
    unfold removeNode
    rw [hlook]
    dsimp only
    exact hloop
  refine ⟨?_, ?_, ?_⟩
  · intro s2 vs n2
    exact ⟨migrateIn_noMigrator c s2 vs n2 hmig, migrateOut_noMigrator c s2 vs n2 hmig⟩
  · rw [hrmEq]
  · rw [hrmEq]
    dsimp only
    have hkeep := hdata2 nodeID (fun i _ => fun heq => rawNodeKey_ne_nodeID nodeID i heq.symm)
    rw [hkeep]
    exact hdk

/-- C9 witness: the sole-node remove at a concrete two-replica ring with one
registered data key and no migrator. -/
theorem c9_nil_migrator_witness :
    (migrateIn cfgPairNil ringNilSole 5 (strChars "A")
        = (.ok ([], [], []), ringNilSole)
      ∧ migrateOut cfgPairNil ringNilSole 5 (strChars "A")
        = (.ok ([], [], []), ringNilSole))
    ∧ (removeNode cfgPairNil ringNilSole (strChars "A")).1 = .ok ()
    ∧ lookupA ((removeNode cfgPairNil ringNilSole (strChars "A")).2).nodeToDataKey
        (strChars "A") = some [strChars "k"] := by
  have h := c9_nil_migrator cfgPairNil ringNilSole (strChars "A") 2 [strChars "k"]
    rfl rfl
    (by unfold SortedSlots ringNilSole; simp)
    (by
      intro i hi
      interval_cases i
      · exact ⟨[strChars "A_0"], rfl, by decide⟩
      · exact ⟨[strChars "A_1"], rfl, by decide⟩)
    rfl
    (by simp)
  exact ⟨h.1 ringNilSole 5 (strChars "A"), h.2.1, h.2.2⟩

/-! ## Well-formedness preservation and claim C2 -/

theorem getSlot_of_mem_sorted (slots : List (Int × List Str)) (p : Int × List Str)
    (hs : SortedSlots slots) (hp : p ∈ slots) : getSlot slots p.1 = some p.2 := by
  induction slots with
  | nil => simp at hp
  | cons q rest ih =>
    rw [SortedSlots, List.map_cons, List.pairwise_cons] at hs
    rcases List.mem_cons.mp hp with rfl | hp
    · rw [getSlot, if_pos rfl]
    · have hlt : q.1 < p.1 := hs.1 p.1 (List.mem_map_of_mem Prod.fst hp)
      rw [getSlot, if_neg (by omega)]
      exact ih hs.2 hp

theorem mem_keys_lookupA {α : Type} (l : List (Str × α)) (k : Str)
    (h : k ∈ l.map Prod.fst) : ∃ v, lookupA l k = some v := by
  induction l with
  | nil => simp at h
  | cons p rest ih =>
    rw [List.map_cons] at h
    by_cases hp : p.1 = k
    · exact ⟨p.2, by rw [lookupA, if_pos hp]⟩
    · rcases List.mem_cons.mp h with hh | hh
      · exact absurd hh.symm hp
      · rw [lookupA, if_neg hp]
        exact ih hh

theorem getNode_frame (c : CH) (s : RingState) (dk : Str) :
    ((getNode c s dk).2).slots = s.slots ∧
    ((getNode c s dk).2).nodeToReplicas = s.nodeToReplicas := by
  unfold getNode
  dsimp only
  repeat' split
  all_goals exact ⟨rfl, rfl⟩

/-- Well-formedness depends only on the slots and the replica map. -/
theorem WFState_of_frame (c : CH) (s s2 : RingState)
    (hsl : s2.slots = s.slots) (hrep : s2.nodeToReplicas = s.nodeToReplicas)
    (h : WFState c s) : WFState c s2 := by
  refine ⟨?_, ?_, ?_, ?_, ?_, ?_⟩
  · rw [hsl]; exact h.sorted
  · rw [hsl]; exact h.nonempty
  · rw [hsl]; exact h.nodup
  · rw [hrep]; exact h.repNodup
  · rw [hsl, hrep]; exact h.sound
  · intro nd rp hnd i hi
    rw [hrep] at hnd
    rcases h.complete nd rp hnd i hi with ⟨l, hg, hm⟩
    exact ⟨l, by rw [hsl]; exact hg, hm⟩

theorem getNode_WF (c : CH) (s : RingState) (dk v : Str) (s2 : RingState)
    (h : getNode c s dk = (.ok v, s2)) (hw : WFState c s) : WFState c s2 := by
  have hf := getNode_frame c s dk
  rw [h] at hf
  exact WFState_of_frame c s s2 hf.1 hf.2 hw

/-- The RemoveNode loop carries its invariant to a full well-formed state. -/
theorem removeLoop_WF (c : CH) (n : Str) (R : Nat) (is : List Nat)
    (t t2 : RingState) (hloop : removeNodeLoop c n is t = (.ok (), t2))
    (hinv : RemInv c n R is t) : WFState c t2 := by
  induction is generalizing t with
  | nil =>
    have ht : t2 = t := by
      unfold removeNodeLoop at hloop
      exact (Prod.mk.injEq .. ▸ hloop).2.symm
    subst ht
    refine ⟨hinv.sorted, hinv.nonempty, hinv.nodup, hinv.repNodup, ?_, hinv.completeX⟩
    intro p hp v hv
    rcases hinv.soundX p hp v hv with hl | ⟨i, hi, _⟩
    · exact hl
    · simp at hi
  | cons i rest ih =>
    unfold removeNodeLoop removeNodeStep at hloop
    dsimp only at hloop
    -- the migrateOut call keeps slots and replica map
    rcases hmo : migrateOut c t (c.encrypt (rawNodeKey n i)) n with ⟨mres, t1⟩
    have hfr := migrateOut_frame c t (c.encrypt (rawNodeKey n i)) n
    rw [hmo] at hloop hfr
    dsimp only at hfr
    cases mres with
    | error e => exact absurd (congrArg Prod.fst hloop) (by simp)
    | ok r =>
      dsimp only at hloop
      rcases hrm : hrRem t1 (c.encrypt (rawNodeKey n i)) (rawNodeKey n i) with e2 | t1r
      · rw [hrm] at hloop
        exact absurd (congrArg Prod.fst hloop) (by simp)
      · rw [hrm] at hloop
        dsimp only at hloop
        -- the invariant holds for t1 (data-only change)
        have hinv1 : RemInv c n R (i :: rest) t1 := by
          refine ⟨?_, ?_, ?_, ?_, ?_, ?_, ?_⟩
          · rw [hfr.1]; exact hinv.sorted
          · rw [hfr.1]; exact hinv.nonempty
          · rw [hfr.1]; exact hinv.nodup
          · rw [hfr.2]; exact hinv.repNodup
          · rw [hfr.2]; exact hinv.nlook
          · rw [hfr.1, hfr.2]; exact hinv.soundX
          · intro nd rp hnd j hj
            rw [hfr.2] at hnd
            rcases hinv.completeX nd rp hnd j hj with ⟨l, hg, hm⟩
            exact ⟨l, by rw [hfr.1]; exact hg, hm⟩
        -- the invariant descends through the removal
        rcases hrRem_ok_elim t1 _ _ t1r hrm with ⟨l, hg, hm, hrepq, hdataq, _⟩
        have hinv2 : RemInv c n R rest t1r := by
          refine ⟨?_, ?_, ?_, ?_, ?_, ?_, ?_⟩
          · exact hrRem_sorted t1 _ _ t1r hinv1.sorted hrm
          · exact hrRem_nonempty t1 _ _ t1r hinv1.nonempty hrm
          · exact hrRem_nodup t1 _ _ t1r hinv1.nodup hrm
          · rw [hrepq]; exact hinv1.repNodup
          · rw [hrepq]; exact hinv1.nlook
          · intro p hp v hv
            have hsorted2 := hrRem_sorted t1 _ _ t1r hinv1.sorted hrm
            have hhas2 : slotHas t1r p.1 v :=
              ⟨p.2, getSlot_of_mem_sorted t1r.slots p hsorted2 hp, hv⟩
            have hhas1 : slotHas t1 p.1 v :=
              hrRem_slotHas_sub t1 _ _ t1r hinv1.sorted hrm p.1 v hhas2
            rcases hhas1 with ⟨l1, hg1, hv1⟩
            have hp1 : (p.1, l1) ∈ t1.slots := getSlot_mem t1.slots p.1 l1 hg1
            rcases hinv1.soundX (p.1, l1) hp1 v hv1 with hl | ⟨j, hj, hjR, hveq, hsc⟩
            · rcases hl with ⟨nd, rp, j, hnd, hjr, hveq, hsc⟩
              exact Or.inl ⟨nd, rp, j, by rw [hrepq]; exact hnd, hjr, hveq, hsc⟩
            · rcases List.mem_cons.mp hj with rfl | hjrest
              · exfalso
                have hgoal : slotHas t1r (c.encrypt (rawNodeKey n j)) (rawNodeKey n j) := by
                  rw [← hveq, ← hsc]
                  exact hhas2
                exact hrRem_slotHas_removed t1 _ _ t1r hinv1.sorted hinv1.nodup hrm hgoal
              · exact Or.inr ⟨j, hjrest, hjR, hveq, hsc⟩
          · intro nd rp hnd j hj
            rw [hrepq] at hnd
            have hndn : nd ≠ n := by
              intro hh
              rw [hh] at hnd
              rw [hinv1.nlook] at hnd
              exact absurd hnd (by simp)
            have hne : rawNodeKey nd j ≠ rawNodeKey n i := by
              intro heq
              exact hndn (rawNodeKey_inj nd n j i heq).1
            exact hrRem_slotHas_keep t1 _ _ t1r hrm _ _ hne
              (hinv1.completeX nd rp hnd j hj)
        exact ih t1r hloop hinv2

theorem mem_insertSlot_elim (slots : List (Int × List Str)) (sc : Int) (v : List Str)
    (p : Int × List Str) (hp : p ∈ insertSlot slots sc v) :
    p ∈ slots ∨ p = (sc, v) := by
  induction slots with
  | nil =>
    simp only [insertSlot] at hp
    exact Or.inr (List.mem_singleton.mp hp)
  | cons q rest ih =>
    by_cases hle : sc ≤ q.1
    · rw [insertSlot, if_pos hle] at hp
      rcases List.mem_cons.mp hp with rfl | hp
      · exact Or.inr rfl
      · exact Or.inl hp
    · rw [insertSlot, if_neg hle] at hp
      rcases List.mem_cons.mp hp with rfl | hp
      · exact Or.inl (List.mem_cons_self _ _)
      · rcases ih hp with hh | hh
        · exact Or.inl (List.mem_cons_of_mem _ hh)
        · exact Or.inr hh

theorem hrAdd_nonempty (s : RingState) (sc : Int) (k : Str)
    (h : ∀ p ∈ s.slots, p.2 ≠ []) : ∀ p ∈ (hrAdd s sc k).slots, p.2 ≠ [] := by
  unfold hrAdd
  cases hg : getSlot s.slots sc with
  | none =>
    intro p hp
    rcases mem_insertSlot_elim s.slots sc [k] p hp with hh | hh
    · exact h p hh
    · rw [hh]
      simp
  | some l =>
    by_cases hm : k ∈ l
    · simpa [hm] using h
    · simp only [if_neg hm]
      intro p hp
      rcases mem_setSlot_elim s.slots sc (l ++ [k]) p hp with hh | hh
      · exact h p hh
      · rw [hh.2]
        simp

theorem hrAdd_nodup (s : RingState) (sc : Int) (k : Str)
    (h : ∀ p ∈ s.slots, p.2.Nodup) : ∀ p ∈ (hrAdd s sc k).slots, p.2.Nodup := by
  unfold hrAdd
  cases hg : getSlot s.slots sc with
  | none =>
    intro p hp
    rcases mem_insertSlot_elim s.slots sc [k] p hp with hh | hh
    · exact h p hh
    · rw [hh]
      simp
  | some l =>
    by_cases hm : k ∈ l
    · simpa [hm] using h
    · simp only [if_neg hm]
      intro p hp
      rcases mem_setSlot_elim s.slots sc (l ++ [k]) p hp with hh | hh
      · exact h p hh
      · rw [hh.2]
        have hl : l.Nodup := h (sc, l) (getSlot_mem s.slots sc l hg)
        simp [List.nodup_append, hl, hm]

theorem slotHas_hrAdd_iff (s : RingState) (sc0 : Int) (k0 : Str) (sc : Int) (v : Str) :
    slotHas (hrAdd s sc0 k0) sc v ↔ slotHas s sc v ∨ (sc = sc0 ∧ v = k0) := by
  constructor
  · exact slotHas_hrAdd_elim s sc0 k0 sc v
  · intro h
    rcases h with h | ⟨rfl, rfl⟩
    · exact slotHas_hrAdd_of s sc0 k0 sc v h
    · exact slotHas_hrAdd_self _ _ _

/-- The AddNode loop keeps the core invariant, leaves the replica map alone,
and adds exactly the virtual nodes of the processed indices. -/
theorem addLoop_WF (c : CH) (n : Str) (R : Nat) (is : List Nat)
    (t t2 : RingState) (hloop : addNodeLoop c n is t = (.ok (), t2))
    (hcore : WFCore c t) (hlook : lookupA t.nodeToReplicas n = some R)
    (hiR : ∀ i ∈ is, i < R) :
    WFCore c t2 ∧ t2.nodeToReplicas = t.nodeToReplicas ∧
      (∀ sc v, slotHas t2 sc v ↔ slotHas t sc v ∨
        ∃ i ∈ is, v = rawNodeKey n i ∧ sc = c.encrypt (rawNodeKey n i)) := by
  induction is generalizing t with
  | nil =>
    have ht : t2 = t := by
      unfold addNodeLoop at hloop
      exact (Prod.mk.injEq .. ▸ hloop).2.symm
    subst ht
    refine ⟨hcore, rfl, ?_⟩
    intro sc v
    simp
  | cons i rest ih =>
    unfold addNodeLoop addNodeStep at hloop
    dsimp only at hloop
    rcases hmi : migrateIn c (hrAdd t (c.encrypt (rawNodeKey n i)) (rawNodeKey n i))
        (c.encrypt (rawNodeKey n i)) n with ⟨mres, t1⟩
    have hfr := migrateIn_frame c (hrAdd t (c.encrypt (rawNodeKey n i)) (rawNodeKey n i))
      (c.encrypt (rawNodeKey n i)) n
    rw [hmi] at hloop hfr
    dsimp only at hfr
    cases mres with
    | error e => exact absurd (congrArg Prod.fst hloop) (by simp)
    | ok r =>
      dsimp only at hloop
      have ht1rep : t1.nodeToReplicas = t.nodeToReplicas := by
        rw [hfr.2, hrAdd_rep]
      have ht1core : WFCore c t1 := by
        refine ⟨?_, ?_, ?_, ?_, ?_⟩
        · rw [hfr.1]
          exact hrAdd_sorted t _ _ hcore.sorted
        · rw [hfr.1]
          exact hrAdd_nonempty t _ _ hcore.nonempty
        · rw [hfr.1]
          exact hrAdd_nodup t _ _ hcore.nodup
        · rw [ht1rep]
          exact hcore.repNodup
        · intro p hp v hv
          have hsorted1 : SortedSlots t1.slots := by
            rw [hfr.1]
            exact hrAdd_sorted t _ _ hcore.sorted
          have hhas : slotHas t1 p.1 v :=
            ⟨p.2, getSlot_of_mem_sorted t1.slots p hsorted1 hp, hv⟩
          have hhas2 : slotHas (hrAdd t (c.encrypt (rawNodeKey n i)) (rawNodeKey n i)) p.1 v := by
            rcases hhas with ⟨l1, hg1, hv1⟩
            exact ⟨l1, by rw [← hfr.1]; exact hg1, hv1⟩
          rcases slotHas_hrAdd_elim t _ _ _ _ hhas2 with hh | ⟨hsc, hvk⟩
          · rcases hh with ⟨l1, hg1, hv1⟩
            rcases hcore.sound (p.1, l1) (getSlot_mem t.slots p.1 l1 hg1) v hv1 with
              ⟨nd, rp, j, hnd, hjr, hveq, hscq⟩
            exact ⟨nd, rp, j, by rw [ht1rep]; exact hnd, hjr, hveq, hscq⟩
          · refine ⟨n, R, i, by rw [ht1rep]; exact hlook, hiR i (List.mem_cons_self _ _),
              hvk, ?_⟩
            rw [hsc, hvk]
      have ht1look : lookupA t1.nodeToReplicas n = some R := by
        rw [ht1rep]
        exact hlook
      obtain ⟨hcore2, hrep2, hchar2⟩ := ih t1 hloop ht1core ht1look
        (fun j hj => hiR j (List.mem_cons_of_mem _ hj))
      refine ⟨hcore2, by rw [hrep2, ht1rep], ?_⟩
      intro sc v
      rw [hchar2 sc v]
      have hiff : slotHas t1 sc v ↔ slotHas t sc v ∨
          (sc = c.encrypt (rawNodeKey n i) ∧ v = rawNodeKey n i) := by
        constructor
        · intro hh
          rcases hh with ⟨l1, hg1, hv1⟩
          exact slotHas_hrAdd_elim t _ _ _ _ ⟨l1, by rw [← hfr.1]; exact hg1, hv1⟩
        · intro hh
          have := (slotHas_hrAdd_iff t (c.encrypt (rawNodeKey n i)) (rawNodeKey n i) sc v).mpr hh
          rcases this with ⟨l1, hg1, hv1⟩
          exact ⟨l1, by rw [hfr.1]; exact hg1, hv1⟩
      rw [hiff]
      constructor
      · intro hh
        rcases hh with (hh | ⟨hsc, hvk⟩) | ⟨j, hj, hveq, hscq⟩
        · exact Or.inl hh
        · exact Or.inr ⟨i, List.mem_cons_self _ _, hvk, hsc⟩
        · exact Or.inr ⟨j, List.mem_cons_of_mem _ hj, hveq, hscq⟩
      · intro hh
        rcases hh with hh | ⟨j, hj, hveq, hscq⟩
        · exact Or.inl (Or.inl hh)
        · rcases List.mem_cons.mp hj with rfl | hjrest
          · exact Or.inl (Or.inr ⟨hscq, hveq⟩)
          · exact Or.inr ⟨j, hjrest, hveq, hscq⟩

theorem removeNode_WF (c : CH) (s : RingState) (n : Str) (s2 : RingState)
    (h : removeNode c s n = (.ok (), s2)) (hw : WFState c s) : WFState c s2 := by
  unfold removeNode at h
  rcases hlk : lookupA s.nodeToReplicas n with _ | R
  · rw [hlk] at h
    exact absurd (congrArg Prod.fst h) (by simp)
  · rw [hlk] at h
    dsimp only at h
    apply removeLoop_WF c n R (List.range R) (hrDeleteNodeToReplica s n) s2 h
    refine ⟨hw.sorted, hw.nonempty, hw.nodup, ?_, ?_, ?_, ?_⟩
    · exact (mapFst_eraseA_sublist s.nodeToReplicas n).nodup hw.repNodup
    · show lookupA (eraseA s.nodeToReplicas n) n = none
      exact lookupA_eraseA_self s.nodeToReplicas n
    · intro p hp v hv
      rcases hw.sound p hp v hv with ⟨nd, rp, i, hnd, hir, hveq, hsc⟩
      by_cases hndn : nd = n
      · subst hndn
        have hrR : rp = R := by
          rw [hlk] at hnd
          exact (Option.some_inj.mp hnd).symm
        subst hrR
        exact Or.inr ⟨i, List.mem_range.mpr hir, hir, hveq, hsc⟩
      · refine Or.inl ⟨nd, rp, i, ?_, hir, hveq, hsc⟩
        show lookupA (eraseA s.nodeToReplicas n) nd = some rp
        rw [lookupA_eraseA_ne s.nodeToReplicas n nd hndn]
        exact hnd
    · intro nd rp hnd i hi
      replace hnd : lookupA (eraseA s.nodeToReplicas n) nd = some rp := hnd
      have hndn : nd ≠ n := by
        intro hh
        rw [hh, lookupA_eraseA_self] at hnd
        exact absurd hnd (by simp)
      rw [lookupA_eraseA_ne s.nodeToReplicas n nd hndn] at hnd
      exact hw.complete nd rp hnd i hi

theorem addNode_WF (c : CH) (s : RingState) (n : Str) (w : Int) (s2 : RingState)
    (h : addNode c s n w = (.ok (), s2)) (hw : WFState c s) : WFState c s2 := by
  unfold addNode at h
  by_cases hany : (s.nodeToReplicas.any fun p => decide (p.1 = n)) = true
  · rw [if_pos hany] at h
    exact absurd (congrArg Prod.fst h) (by simp)
  · rw [if_neg hany] at h
    dsimp only at h
    have hnone : lookupA s.nodeToReplicas n = none :=
      (any_key_eq_false s.nodeToReplicas n).mp (Bool.not_eq_true _ ▸ hany)
    have hnkey : n ∉ s.nodeToReplicas.map Prod.fst := by
      intro hmem
      rcases mem_keys_lookupA s.nodeToReplicas n hmem with ⟨v, hv⟩
      rw [hnone] at hv
      exact absurd hv (by simp)
    have hrepset : setA s.nodeToReplicas n (getValidWeight w * c.replicas)
        = s.nodeToReplicas ++ [(n, getValidWeight w * c.replicas)] :=
      setA_of_lookup_none s.nodeToReplicas n _ hnone
    have hcore0 : WFCore c (hrAddNodeToReplica s n (getValidWeight w * c.replicas)) := by
      refine ⟨hw.sorted, hw.nonempty, hw.nodup, ?_, ?_⟩
      · show (setA s.nodeToReplicas n (getValidWeight w * c.replicas)).map Prod.fst
          |>.Nodup
        rw [hrepset, List.map_append]
        simp only [List.map_cons, List.map_nil]
        rw [List.nodup_append]
        refine ⟨hw.repNodup, by simp, ?_⟩
        intro a ha hb
        rcases List.mem_singleton.mp hb with rfl
        exact hnkey ha
      · intro p hp v hv
        rcases hw.sound p hp v hv with ⟨nd, rp, i, hnd, hir, hveq, hsc⟩
        have hndn : nd ≠ n := by
          intro hh
          rw [hh, hnone] at hnd
          exact absurd hnd (by simp)
        refine ⟨nd, rp, i, ?_, hir, hveq, hsc⟩
        show lookupA (setA s.nodeToReplicas n (getValidWeight w * c.replicas)) nd
          = some rp
        rw [lookupA_setA_ne s.nodeToReplicas n nd _ hndn]
        exact hnd
    have hlook0 : lookupA (hrAddNodeToReplica s n
        (getValidWeight w * c.replicas)).nodeToReplicas n
        = some (getValidWeight w * c.replicas) :=
      lookupA_setA_self s.nodeToReplicas n _
    obtain ⟨hcore2, hrep2, hchar2⟩ := addLoop_WF c n (getValidWeight w * c.replicas)
      (List.range (getValidWeight w * c.replicas)) _ s2 h hcore0 hlook0
      (fun i hi => List.mem_range.mp hi)
    refine ⟨hcore2.sorted, hcore2.nonempty, hcore2.nodup, hcore2.repNodup,
      hcore2.sound, ?_⟩
    intro nd rp hnd i hi
    rw [hrep2] at hnd
    by_cases hndn : nd = n
    · subst hndn
      have hrR : rp = getValidWeight w * c.replicas := by
        have := hlook0
        rw [this] at hnd
        exact (Option.some_inj.mp hnd).symm
      subst hrR
      exact (hchar2 (c.encrypt (rawNodeKey nd i)) (rawNodeKey nd i)).mpr
        (Or.inr ⟨i, List.mem_range.mpr hi, rfl, rfl⟩)
    · have hnd2 : lookupA s.nodeToReplicas nd = some rp := by
        have : lookupA (setA s.nodeToReplicas n (getValidWeight w * c.replicas)) nd
            = some rp := hnd
        rw [lookupA_setA_ne s.nodeToReplicas n nd _ hndn] at this
        exact this
      have hh := hw.complete nd rp hnd2 i hi
      exact (hchar2 (c.encrypt (rawNodeKey nd i)) (rawNodeKey nd i)).mpr (Or.inl hh)

theorem reachable_WF (c : CH) (s : RingState) (h : Reachable c s) : WFState c s := by
  induction h with
  | start =>
    refine ⟨?_, ?_, ?_, ?_, ?_, ?_⟩
    · exact List.Pairwise.nil
    · intro p hp
      simp [emptyRing] at hp
    · intro p hp
      simp [emptyRing] at hp
    · simp [emptyRing]
    · intro p hp
      simp [emptyRing] at hp
    · intro nd rp hnd
      simp [emptyRing, lookupA] at hnd
  | stepAdd s1 s2 nodeID weight _ heq ih => exact addNode_WF c s1 nodeID weight s2 heq ih
  | stepRemove s1 s2 nodeID _ heq ih => exact removeNode_WF c s1 nodeID s2 heq ih
  | stepGet s1 s2 dataKey v _ heq ih => exact getNode_WF c s1 dataKey v s2 heq ih

/-- C2 amended: along any run of public operations from the empty ring in
which every operation returns without error, every virtual-node key stored in
any ring slot decodes (suffix after the last underscore) to a node ID present
in the node-to-replicas map. -/
theorem c2_invariant_amended (c : CH) (s : RingState) (h : Reachable c s) :
    ringConsistent s := by
  have hw := reachable_WF c s h
  intro p hp v hv
  rcases hw.sound p hp v hv with ⟨nd, rp, _, hnd, _, hveq, _⟩
  rw [hveq, getNodeID_rawNodeKey, hnd]
  rfl

/-- C2 witness: the invariant at the state reached by one successful AddNode
from the empty ring. -/
theorem c2_invariant_witness :
    Reachable cfgPairNil (addNode cfgPairNil emptyRing (strChars "A") 1).2 ∧
    ringConsistent (addNode cfgPairNil emptyRing (strChars "A") 1).2 := by
  have hre : Reachable cfgPairNil (addNode cfgPairNil emptyRing (strChars "A") 1).2 :=
    Reachable.stepAdd emptyRing _ (strChars "A") 1 Reachable.start (by rfl)
  exact ⟨hre, c2_invariant_amended cfgPairNil _ hre⟩

end CHash
